import Mathlib

/-!
Verification development for the symmetry-sector bookkeeping layer of
tenpy (files src/tenpy/linalg/symmetries/groups.py and
src/tenpy/linalg/symmetries/spaces.py), as a shallow embedding in Lean.

Sectors are 1D integer arrays in the source; we model them as lists of
integers.  Every concrete symmetry class in groups.py has a length-1
trivial sector, so a ProductSymmetry of those classes has
sector_slices = [0, 1, 2, ...] and splitting a product sector into
factor parts is take 1 / drop 1.
-/

/-- A sector: 1D integer array labelling an irreducible symmetry charge
(groups.py, Sector type alias). -/
abbrev Sector := List Int

/-- FusionStyle enum from groups.py. -/
inductive FusionStyle
  | single
  | multiple_unique
  | general
deriving DecidableEq

/-- The integer value of a FusionStyle (groups.py: 0, 10, 20), used for
max-severity comparison in ProductSymmetry. -/
def FusionStyle.value : FusionStyle → Nat
  | .single => 0
  | .multiple_unique => 10
  | .general => 20

/-- BraidingStyle enum from groups.py. -/
inductive BraidingStyle
  | bosonic
  | fermionic
  | anyonic
  | no_braiding
deriving DecidableEq

/-- The integer value of a BraidingStyle (groups.py: 0, 10, 20, 30). -/
def BraidingStyle.value : BraidingStyle → Nat
  | .bosonic => 0
  | .fermionic => 10
  | .anyonic => 20
  | .no_braiding => 30

/-- The concrete non-product symmetry classes of groups.py.
ProductSymmetry.__init__ asserts its factors are not ProductSymmetry
instances, so factors are always drawn from this type.
`name` is the descriptive_name attribute (NoSymmetry and FermionParity
always pass descriptive_name=None).  ZNSymmetry takes N as a natural
number (the source asserts isinstance(N, int); its range check
`if not isinstance(N, int) and N > 1` can never fire). -/
inductive AtomSym
  | noSymmetry
  | u1 (name : Option String)
  | zN (N : Nat) (name : Option String)
  | su2 (name : Option String)
  | fermionParity
deriving DecidableEq

/-- A symmetry: either a single concrete symmetry or a ProductSymmetry
of concrete factor symmetries (groups.py). -/
inductive Symmetry
  | atom (g : AtomSym)
  | prodSym (factors : List AtomSym)
deriving DecidableEq

/-- numpy modulo: like Int.emod for a positive modulus (result in [0, n)),
and numpy yields 0 on division by zero instead of raising. -/
def npMod (x n : Int) : Int := if n = 0 then 0 else x % n

/-- np.arange(start, stop, 2) for integer scalars: the list
start, start+2, ... of length max(0, ceil((stop-start)/2)). -/
def arangeStep2 (start stop : Int) : List Int :=
  (List.range ((stop - start + 1) / 2).toNat).map (fun (k : Nat) => start + 2 * (k : Int))

/-- fusion_style of each concrete symmetry class (groups.py __init__ calls). -/
def AtomSym.fusionStyle : AtomSym → FusionStyle
  | .noSymmetry => .single
  | .u1 _ => .single
  | .zN _ _ => .single
  | .su2 _ => .multiple_unique
  | .fermionParity => .single

/-- braiding_style of each concrete symmetry class. -/
def AtomSym.braidingStyle : AtomSym → BraidingStyle
  | .fermionParity => .fermionic
  | _ => .bosonic

/-- is_valid_sector for each concrete class (groups.py): an array-likeness
shape check (length 1) plus the per-class domain condition. -/
def AtomSym.isValidSector : AtomSym → Sector → Bool
  | .noSymmetry, a => a.length = 1 && a.headD 0 = 0
  | .u1 _, a => a.length = 1
  | .zN N _, a => a.length = 1 && (0 ≤ a.headD 0 && a.headD 0 < (N : Int))
  | .su2 _, a => a.length = 1 && 0 ≤ a.headD 0
  | .fermionParity, a => a.length = 1 && (a.headD 0 = 0 || a.headD 0 = 1)

/-- fusion_outcomes of each concrete class (groups.py):
NoSymmetry returns a[newaxis]; U(1) / Z_N / FermionParity delegate to
their elementwise fusion_outcomes_broadcast on single-row inputs;
SU(2) returns np.arange(abs(a-b), a+b+2, 2) as column vector. -/
def AtomSym.fusionOutcomes : AtomSym → Sector → Sector → List Sector
  | .noSymmetry, a, _ => [a]
  | .u1 _, a, b => [List.zipWith (fun x y => x + y) a b]
  | .zN N _, a, b => [List.zipWith (fun x y => npMod (x + y) (N : Int)) a b]
  | .su2 _, a, b =>
      (arangeStep2 |a.headD 0 - b.headD 0| (a.headD 0 + b.headD 0 + 2)).map (fun c => [c])
  | .fermionParity, a, b => [List.zipWith (fun x y => npMod (x + y) 2) a b]

/-- sector_dim of each concrete class: 1 for the abelian groups and for
FermionParity, jj + 1 for the SU(2) sector [jj]. -/
def AtomSym.sectorDim : AtomSym → Sector → Int
  | .su2 _, a => a.headD 0 + 1
  | _, _ => 1

/-- dual_sector of each concrete class: identity for NoSymmetry, SU(2) and
FermionParity, elementwise negation for U(1), (-a) % N for Z_N. -/
def AtomSym.dualSector : AtomSym → Sector → Sector
  | .noSymmetry, a => a
  | .u1 _, a => a.map (fun x => -x)
  | .zN N _, a => a.map (fun x => npMod (-x) (N : Int))
  | .su2 _, a => a
  | .fermionParity, a => a

/-- Python errors that the modelled code can raise. -/
inductive PyErr
  | attributeError (name : String)
  | indexError
  | assertionError
  | notImplementedError
deriving DecidableEq

/-- n_symbol of each concrete class: 1 for the abelian groups (inherited
AbelianGroup.n_symbol) and FermionParity; SU2Symmetry.n_symbol raises
NotImplementedError. -/
def AtomSym.nSymbol : AtomSym → Sector → Sector → Sector → Except PyErr Int
  | .su2 _, _, _, _ => .error .notImplementedError
  | _, _, _, _ => .ok 1

/-- is_same_symmetry between two concrete symmetries (groups.py per-class
definitions; all are isinstance checks, ZNSymmetry additionally compares N). -/
def AtomSym.isSame : AtomSym → AtomSym → Bool
  | .noSymmetry, .noSymmetry => true
  | .u1 _, .u1 _ => true
  | .zN N _, .zN M _ => N = M
  | .su2 _, .su2 _ => true
  | .fermionParity, .fermionParity => true
  | _, _ => false

/-- descriptive_name of a concrete symmetry. -/
def AtomSym.descriptiveName : AtomSym → Option String
  | .noSymmetry => none
  | .u1 n => n
  | .zN _ n => n
  | .su2 n => n
  | .fermionParity => none

/-- Python == between two concrete symmetries: Symmetry.__eq__ compares
descriptive_name and then is_same_symmetry. -/
def AtomSym.pyEq (a b : AtomSym) : Bool :=
  a.descriptiveName = b.descriptiveName && a.isSame b

/-- fusion_style of a ProductSymmetry: maximum severity across factors.
Python max of an empty sequence raises; we default to single, which is
never exercised by the claims. -/
def prodFusionStyle (fs : List AtomSym) : FusionStyle :=
  fs.foldl (fun acc f => if acc.value < f.fusionStyle.value then f.fusionStyle else acc) .single

/-- fusion_style of a Symmetry. -/
def Symmetry.fusionStyle : Symmetry → FusionStyle
  | .atom g => g.fusionStyle
  | .prodSym fs => prodFusionStyle fs

/-- sector_ind_len: length of the trivial sector; 1 for every concrete
class, the factor count for a ProductSymmetry. -/
def Symmetry.sectorIndLen : Symmetry → Nat
  | .atom _ => 1
  | .prodSym fs => fs.length

/-- trivial_sector of a Symmetry: [0] for every concrete class,
concatenation over factors for a ProductSymmetry. -/
def Symmetry.trivialSector : Symmetry → Sector
  | .atom _ => [0]
  | .prodSym fs => List.replicate fs.length 0

/-- ProductSymmetry.is_valid_sector: shape check against sector_ind_len,
then each per-factor part (take 1 of successive drops, since every factor
has sector_ind_len 1) must be valid for its factor. -/
def prodValidParts : List AtomSym → Sector → Bool
  | [], _ => true
  | g :: gs, a => g.isValidSector (a.take 1) && prodValidParts gs (a.drop 1)

/-- is_valid_sector of a Symmetry. -/
def Symmetry.isValidSector : Symmetry → Sector → Bool
  | .atom g, a => g.isValidSector a
  | .prodSym fs, a => a.length = fs.length && prodValidParts fs a

/-- ProductSymmetry.fusion_outcomes: per-factor outcomes on the per-factor
parts of a and b, combined as all concatenations; the C-order reshape in
the source makes the first factor the slowest-varying index. -/
def prodOutcomes : List AtomSym → Sector → Sector → List Sector
  | [], _, _ => [[]]
  | g :: gs, a, b =>
      (g.fusionOutcomes (a.take 1) (b.take 1)).flatMap
        (fun c => (prodOutcomes gs (a.drop 1) (b.drop 1)).map (fun t => c ++ t))

/-- fusion_outcomes of a Symmetry. -/
def Symmetry.fusionOutcomes : Symmetry → Sector → Sector → List Sector
  | .atom g, a, b => g.fusionOutcomes a b
  | .prodSym fs, a, b => prodOutcomes fs a b

/-- Product of the per-factor sector_dims (ProductSymmetry.sector_dim,
non-single branch). -/
def prodSectorDim : List AtomSym → Sector → Int
  | [], _ => 1
  | g :: gs, a => g.sectorDim (a.take 1) * prodSectorDim gs (a.drop 1)

/-- sector_dim of a Symmetry; ProductSymmetry returns 1 directly when its
fusion_style is single. -/
def Symmetry.sectorDim : Symmetry → Sector → Int
  | .atom g, a => g.sectorDim a
  | .prodSym fs, a =>
      if prodFusionStyle fs = .single then 1 else prodSectorDim fs a

/-- ProductSymmetry.dual_sector: concatenation of the per-factor duals. -/
def prodDualSector : List AtomSym → Sector → Sector
  | [], _ => []
  | g :: gs, a => g.dualSector (a.take 1) ++ prodDualSector gs (a.drop 1)

/-- dual_sector of a Symmetry. -/
def Symmetry.dualSector : Symmetry → Sector → Sector
  | .atom g, a => g.dualSector a
  | .prodSym fs, a => prodDualSector fs a

/-- dual_sectors of a Symmetry: rowwise dual_sector.  Every override in
groups.py (elementwise negation, columnwise concatenation, identity) has
exactly this rowwise behaviour. -/
def Symmetry.dualSectors (s : Symmetry) (secs : List Sector) : List Sector :=
  secs.map s.dualSector

/-- ProductSymmetry.n_symbol: 1 when fusion_style is single or
multiple_unique, otherwise the product over factors; Symmetry.nSymbol
dispatches per class.  SU(2) alone raises NotImplementedError. -/
def Symmetry.nSymbol : Symmetry → Sector → Sector → Sector → Except PyErr Int
  | .atom g, a, b, c => g.nSymbol a b c
  | .prodSym fs, a, b, c =>
      if prodFusionStyle fs = .single ∨ prodFusionStyle fs = .multiple_unique then .ok 1
      else
        (List.range fs.length).foldlM
          (fun acc i => do
            let gi := fs.getD i .noSymmetry
            let n ← gi.nSymbol ((a.drop i).take 1) ((b.drop i).take 1) ((c.drop i).take 1)
            return acc * n)
          1

/-- Python == between two Symmetry objects: Symmetry.__eq__ compares
descriptive_name then is_same_symmetry; ProductSymmetry.__eq__ compares
factor lists pairwise; a product never equals a non-product. -/
def Symmetry.pyEq : Symmetry → Symmetry → Bool
  | .atom g, .atom h => g.pyEq h
  | .prodSym fs, .prodSym gs =>
      fs.length = gs.length && (List.zip fs gs).all (fun p => p.1.pyEq p.2)
  | _, _ => false

/-! ### Python class hierarchy and the metaclass instance check (C10) -/

/-- The classes of groups.py that participate in isinstance queries. -/
inductive PyClass
  | symmetryCls
  | groupCls
  | abelianGroupCls
  | noSymmetryCls
  | u1Cls
  | zNCls
  | su2Cls
  | fermionParityCls
  | productSymmetryCls
deriving DecidableEq

/-- Nominal (type.__instancecheck__) instance relation for concrete
symmetry objects: NoSymmetry/U1Symmetry/ZNSymmetry subclass AbelianGroup
which subclasses Group which subclasses Symmetry; SU2Symmetry subclasses
Group; FermionParity subclasses Symmetry directly. -/
def AtomSym.nominalInstance (g : AtomSym) (c : PyClass) : Bool :=
  match g, c with
  | _, .symmetryCls => true
  | .noSymmetry, .noSymmetryCls => true
  | .noSymmetry, .abelianGroupCls => true
  | .noSymmetry, .groupCls => true
  | .u1 _, .u1Cls => true
  | .u1 _, .abelianGroupCls => true
  | .u1 _, .groupCls => true
  | .zN _ _, .zNCls => true
  | .zN _ _, .abelianGroupCls => true
  | .zN _ _, .groupCls => true
  | .su2 _, .su2Cls => true
  | .su2 _, .groupCls => true
  | .fermionParity, .fermionParityCls => true
  | _, _ => false

/-- Nominal instance relation for any symmetry object; ProductSymmetry
subclasses only Symmetry. -/
def Symmetry.nominalInstance : Symmetry → PyClass → Bool
  | .atom g, c => g.nominalInstance c
  | .prodSym _, .productSymmetryCls => true
  | .prodSym _, .symmetryCls => true
  | .prodSym _, _ => false

/-- isinstance with _ABCFactorSymmetryMeta.__instancecheck__: when the
queried class is Group or AbelianGroup and the object is (nominally) a
ProductSymmetry, the check holds iff every factor is nominally an
instance of the queried class; otherwise the nominal check is used. -/
def pyIsinstance (s : Symmetry) (c : PyClass) : Bool :=
  if (c = .groupCls ∨ c = .abelianGroupCls) ∧ s.nominalInstance .productSymmetryCls then
    match s with
    | .prodSym fs => fs.all (fun f => f.nominalInstance c)
    | .atom g => g.nominalInstance c
  else s.nominalInstance c

/-- Claim C10: for a ProductSymmetry, the isinstance query against
AbelianGroup holds iff every factor is an instance of AbelianGroup, and
likewise against Group, although ProductSymmetry is a nominal subclass of
neither. -/
theorem C10_product_symmetry_instancecheck (fs : List AtomSym) :
    (pyIsinstance (.prodSym fs) .abelianGroupCls = true ↔
      ∀ f ∈ fs, pyIsinstance (.atom f) .abelianGroupCls = true) ∧
    (pyIsinstance (.prodSym fs) .groupCls = true ↔
      ∀ f ∈ fs, pyIsinstance (.atom f) .groupCls = true) ∧
    Symmetry.nominalInstance (.prodSym fs) .abelianGroupCls = false ∧
    Symmetry.nominalInstance (.prodSym fs) .groupCls = false := by
  have hatom : ∀ (f : AtomSym) (c : PyClass), pyIsinstance (.atom f) c = f.nominalInstance c := by
    intro f c
    simp only [pyIsinstance]
    split
    · rename_i h
      rcases h with ⟨_, hprod⟩
      cases f <;> simp [AtomSym.nominalInstance, Symmetry.nominalInstance] at hprod
    · rfl
  refine ⟨?_, ?_, rfl, rfl⟩
  · simp [pyIsinstance, Symmetry.nominalInstance, List.all_eq_true, hatom]
  · simp [pyIsinstance, Symmetry.nominalInstance, List.all_eq_true, hatom]

/-! ### SU(2) fusion outcomes (C9) -/

/-- Claim C9: for valid SU(2) sectors [a], [b] (nonnegative doubled spins),
fusion_outcomes([a],[b]) is exactly the list [|a-b|], [|a-b|+2], ..., [a+b]
in steps of 2 inclusive; equivalently a sector [c] occurs iff
|a-b| <= c <= a+b with c - |a-b| even. -/
theorem C9_su2_fusion_range (a b : Int) (ha : 0 ≤ a) (hb : 0 ≤ b) :
    (AtomSym.fusionOutcomes (.su2 none) [a] [b] =
      (List.range ((min a b).toNat + 1)).map (fun (k : Nat) => [|a - b| + 2 * (k : Int)])) ∧
    (∀ c : Int, [c] ∈ AtomSym.fusionOutcomes (.su2 none) [a] [b] ↔
      |a - b| ≤ c ∧ c ≤ a + b ∧ (2 : Int) ∣ (c - |a - b|)) := by
  have habs : |a - b| = a + b - 2 * min a b := by
    rcases le_total a b with h | h
    · rw [abs_of_nonpos (by omega), min_eq_left h]; ring
    · rw [abs_of_nonneg (by omega), min_eq_right h]; ring
  have hmin0 : 0 ≤ min a b := le_min ha hb
  have hcount : (a + b + 2 - |a - b| + 1) / 2 = min a b + 1 := by
    rw [habs]
    have h : a + b + 2 - (a + b - 2 * min a b) + 1 = 2 * min a b + 3 := by ring
    rw [h]
    omega
  have hlist : AtomSym.fusionOutcomes (.su2 none) [a] [b] =
      (List.range ((min a b).toNat + 1)).map (fun (k : Nat) => [|a - b| + 2 * (k : Int)]) := by
    simp only [AtomSym.fusionOutcomes, arangeStep2, List.headD_cons]
    have hcnt : ((a + b + 2 - |a - b| + 1) / 2).toNat = (min a b).toNat + 1 := by
      omega
    rw [hcnt, List.map_map]
    rfl
  refine ⟨hlist, ?_⟩
  intro c
  rw [hlist]
  constructor
  · intro hc
    rcases List.mem_map.mp hc with ⟨k, hk, hck⟩
    have hkn : k < (min a b).toNat + 1 := List.mem_range.mp hk
    have hc2 : c = |a - b| + 2 * (k : Int) := by
      have h : [|a - b| + 2 * (k : Int)] = [c] := hck
      simpa using h.symm
    refine ⟨by omega, by omega, ⟨(k : Int), by omega⟩⟩
  · rintro ⟨h1, h2, k, hk⟩
    have hk0 : 0 ≤ k := by omega
    have hkmin : k ≤ min a b := by omega
    refine List.mem_map.mpr ⟨k.toNat, List.mem_range.mpr (by omega), ?_⟩
    have hkt : ((k.toNat : Int)) = k := Int.toNat_of_nonneg hk0
    have hval : |a - b| + 2 * ((k.toNat : Int)) = c := by rw [hkt]; omega
    exact congrArg (fun x => [x]) hval

/-- Witness for C9 at a = b = 2: the fusion of two spin-1 sectors is
exactly [0], [2], [4]. -/
theorem C9_su2_fusion_range_witness :
    AtomSym.fusionOutcomes (.su2 none) [2] [2] = [[0], [2], [4]] := by
  have h := (C9_su2_fusion_range 2 2 (by decide) (by decide)).1
  simpa using h

/-! ### List machinery: lexsort order, stable argsort, gather, inverse permutation -/

/-- Strict lexicographic comparison of integer lists, first element most
significant; a proper prefix precedes its extensions. -/
def lexLt : List Int → List Int → Bool
  | [], [] => false
  | [], _ :: _ => true
  | _ :: _, [] => false
  | x :: xs, y :: ys => if x < y then true else if y < x then false else lexLt xs ys

/-- The row order induced by np.lexsort(sectors.T): the LAST column is the
primary sort key, so rows compare lexicographically from the last entry
backwards. -/
def colexLt (a b : List Int) : Bool := lexLt a.reverse b.reverse

theorem lexLt_irrefl (a : List Int) : lexLt a a = false := by
  induction a with
  | nil => rfl
  | cons x xs ih => simp [lexLt, ih]

theorem lexLt_asymm {a b : List Int} (h : lexLt a b = true) : lexLt b a = false := by
  induction a generalizing b with
  | nil => cases b with
    | nil => simpa [lexLt] using h
    | cons y ys => simp [lexLt]
  | cons x xs ih =>
    cases b with
    | nil => simp [lexLt] at h
    | cons y ys =>
      simp only [lexLt] at h ⊢
      rcases lt_trichotomy x y with hxy | hxy | hxy
      · simp [hxy, not_lt.mpr (le_of_lt hxy)]
      · subst hxy
        simp only [lt_irrefl, if_false] at h ⊢
        exact ih h
      · simp [hxy, not_lt.mpr (le_of_lt hxy)] at h

theorem lexLt_total {a b : List Int} (hab : lexLt a b = false) (hba : lexLt b a = false) :
    a = b := by
  induction a generalizing b with
  | nil => cases b with
    | nil => rfl
    | cons y ys => simp [lexLt] at hab
  | cons x xs ih =>
    cases b with
    | nil => simp [lexLt] at hba
    | cons y ys =>
      simp only [lexLt] at hab hba
      rcases lt_trichotomy x y with hxy | hxy | hxy
      · simp [hxy] at hab
      · subst hxy
        simp only [lt_irrefl, if_false] at hab hba
        rw [ih hab hba]
      · simp [hxy] at hba

theorem lexLt_trans {a b c : List Int} (h1 : lexLt a b = true) (h2 : lexLt b c = true) :
    lexLt a c = true := by
  induction a generalizing b c with
  | nil =>
    cases c with
    | nil =>
      cases b with
      | nil => exact h1
      | cons y ys => simp [lexLt] at h2
    | cons z zs => simp [lexLt]
  | cons x xs ih =>
    cases b with
    | nil => simp [lexLt] at h1
    | cons y ys =>
      cases c with
      | nil => simp [lexLt] at h2
      | cons z zs =>
        simp only [lexLt] at h1 h2 ⊢
        rcases lt_trichotomy x y with hxy | hxy | hxy
        · rcases lt_trichotomy y z with hyz | hyz | hyz
          · simp [lt_trans hxy hyz]
          · subst hyz; simp [hxy]
          · simp [hyz, not_lt.mpr (le_of_lt hyz)] at h2
        · subst hxy
          simp only [lt_irrefl, if_false] at h1
          rcases lt_trichotomy x z with hxz | hxz | hxz
          · simp [hxz]
          · subst hxz
            simp only [lt_irrefl, if_false] at h2 ⊢
            exact ih h1 h2
          · simp [hxz, not_lt.mpr (le_of_lt hxz)] at h2
        · simp [hxy, not_lt.mpr (le_of_lt hxy)] at h1

theorem colexLt_irrefl (a : List Int) : colexLt a a = false := lexLt_irrefl _

theorem colexLt_total {a b : List Int} (hab : colexLt a b = false) (hba : colexLt b a = false) :
    a = b := by
  have h := lexLt_total hab hba
  have := congrArg List.reverse h
  simpa using this

theorem colexLt_trans {a b c : List Int} (h1 : colexLt a b = true) (h2 : colexLt b c = true) :
    colexLt a c = true := lexLt_trans h1 h2

/-- Stable insertion of index i into an index list ordered by colexLt on the
rows of secs: i goes before the first index whose row is strictly greater,
hence after all equal rows (the stability of np.lexsort). -/
def argInsert (secs : List Sector) (i : Nat) : List Nat → List Nat
  | [] => [i]
  | j :: rest =>
      if colexLt (secs.getD i []) (secs.getD j []) then i :: j :: rest
      else j :: argInsert secs i rest

/-- np.lexsort(secs.T): the stable permutation sorting the rows of secs in
the colex (last-entry-primary) order. -/
def lexsortPerm (secs : List Sector) : List Nat :=
  (List.range secs.length).foldl (fun acc i => argInsert secs i acc) []

/-- Gather xs[idx]: numpy integer-array indexing of a list. -/
def gatherD {α : Type} (xs : List α) (d : α) (idx : List Nat) : List α :=
  idx.map (fun i => xs.getD i d)

/-- Modelled from the spec: tenpy.tools.misc.inverse_permutation is imported
by spaces.py but tenpy/tools is not under src/.  Per the attribute
documentation in spaces.py (_sector_perm maps canonical order to insertion
order, _inverse_sector_perm is its inverse) it returns the permutation inv
with inv[p[i]] = i, i.e. inv[k] is the position of k in p. -/
def invPerm (p : List Nat) : List Nat :=
  (List.range p.length).map (fun k => p.indexOf k)

theorem argInsert_perm (secs : List Sector) (i : Nat) (l : List Nat) :
    List.Perm (argInsert secs i l) (i :: l) := by
  induction l with
  | nil => exact List.Perm.refl _
  | cons j rest ih =>
    simp only [argInsert]
    split
    · exact List.Perm.refl _
    · exact (ih.cons j).trans (List.Perm.swap i j rest)

theorem foldl_argInsert_perm (secs : List Sector) (is : List Nat) (acc : List Nat) :
    List.Perm (is.foldl (fun l i => argInsert secs i l) acc) (is ++ acc) := by
  induction is generalizing acc with
  | nil => exact List.Perm.refl _
  | cons i rest ih =>
    simp only [List.foldl_cons, List.cons_append]
    exact (ih (argInsert secs i acc)).trans
      ((List.Perm.append_left rest (argInsert_perm secs i acc)).trans List.perm_middle)

theorem lexsortPerm_perm (secs : List Sector) :
    List.Perm (lexsortPerm secs) (List.range secs.length) := by
  have h := foldl_argInsert_perm secs (List.range secs.length) []
  simpa [lexsortPerm] using h

/-- The weak sortedness relation maintained by argInsert: the earlier row is
not strictly greater than the later one. -/
def keyLe (secs : List Sector) (i j : Nat) : Prop :=
  colexLt (secs.getD j []) (secs.getD i []) = false

theorem argInsert_pairwise (secs : List Sector) (i : Nat) {l : List Nat}
    (h : List.Pairwise (keyLe secs) l) :
    List.Pairwise (keyLe secs) (argInsert secs i l) := by
  induction l with
  | nil => simp [argInsert, List.Pairwise]
  | cons j rest ih =>
    rcases List.pairwise_cons.mp h with ⟨hj, hrest⟩
    simp only [argInsert]
    split
    · rename_i hlt
      refine List.pairwise_cons.mpr ⟨?_, h⟩
      intro k hk
      rcases hk with _ | hk
      · exact lexLt_asymm hlt
      · rename_i hk
        have hjk := hj k hk
        unfold keyLe at hjk ⊢
        by_contra hc
        have hc2 : colexLt (secs.getD k []) (secs.getD i []) = true := by
          cases hcc : colexLt (secs.getD k []) (secs.getD i []) with
          | true => rfl
          | false => exact absurd hcc hc
        have := colexLt_trans hc2 hlt
        rw [this] at hjk
        exact Bool.noConfusion hjk
    · rename_i hnlt
      refine List.pairwise_cons.mpr ⟨?_, ih hrest⟩
      intro k hk
      have hk2 := (argInsert_perm secs i rest).mem_iff.mp hk
      rcases List.mem_cons.mp hk2 with hk3 | hk3
      · subst hk3
        unfold keyLe
        exact Bool.of_not_eq_true hnlt
      · exact hj k hk3

theorem lexsortPerm_pairwise (secs : List Sector) :
    List.Pairwise (keyLe secs) (lexsortPerm secs) := by
  unfold lexsortPerm
  generalize List.range secs.length = is
  have h : ∀ (acc : List Nat), List.Pairwise (keyLe secs) acc →
      List.Pairwise (keyLe secs) (is.foldl (fun l i => argInsert secs i l) acc) := by
    induction is with
    | nil => intro acc hacc; exact hacc
    | cons i rest ih =>
      intro acc hacc
      exact ih _ (argInsert_pairwise secs i hacc)
  exact h [] (by simp)

theorem mem_lexsortPerm_lt (secs : List Sector) {i : Nat} (h : i ∈ lexsortPerm secs) :
    i < secs.length := by
  have := (lexsortPerm_perm secs).mem_iff.mp h
  exact List.mem_range.mp this

theorem getD_lt {α : Type} (xs : List α) (d : α) {i : Nat} (h : i < xs.length) :
    xs.getD i d = xs[i] := by
  simp [List.getD_eq_getElem?_getD, List.getElem?_eq_getElem h]

theorem gatherD_length {α : Type} (xs : List α) (d : α) (idx : List Nat) :
    (gatherD xs d idx).length = idx.length := by
  simp [gatherD]

theorem gatherD_getElem {α : Type} (xs : List α) (d : α) (idx : List Nat) {k : Nat}
    (h : k < idx.length) (hg : k < (gatherD xs d idx).length) :
    (gatherD xs d idx)[k] = xs.getD (idx[k]) d := by
  simp [gatherD]

theorem range_map_getD {α : Type} (xs : List α) (d : α) :
    (List.range xs.length).map (fun i => xs.getD i d) = xs := by
  apply List.ext_getElem
  · simp
  · intro i h1 h2
    simp only [List.getElem_map, List.getElem_range]
    exact getD_lt xs d h2

theorem perm_gatherD {α : Type} (xs : List α) (d : α) (p : List Nat)
    (hp : List.Perm p (List.range xs.length)) :
    List.Perm (gatherD xs d p) xs := by
  have h1 : List.Perm (p.map (fun i => xs.getD i d))
      ((List.range xs.length).map (fun i => xs.getD i d)) := hp.map _
  rw [range_map_getD] at h1
  exact h1

theorem invPerm_length (p : List Nat) : (invPerm p).length = p.length := by
  simp [invPerm]

theorem gatherD_gatherD_invPerm {α : Type} (xs : List α) (d : α) (p : List Nat)
    (hp : List.Perm p (List.range xs.length)) :
    gatherD (gatherD xs d p) d (invPerm p) = xs := by
  have hlen : p.length = xs.length := by
    simpa using hp.length_eq
  have hnodup : p.Nodup := hp.symm.nodup (List.nodup_range _)
  apply List.ext_getElem
  · simp [gatherD_length, invPerm_length, hlen]
  · intro k h1 h2
    have hk : k < (invPerm p).length := by
      simpa [gatherD_length] using h1
    rw [gatherD_getElem _ _ _ hk h1]
    have hkp : (invPerm p)[k] = p.indexOf k := by
      have hkl : k < p.length := by simpa [invPerm_length] using hk
      simp [invPerm, List.getElem_range]
    rw [hkp]
    have hkmem : k ∈ p := hp.mem_iff.mpr (List.mem_range.mpr (by omega))
    have hidx : p.indexOf k < p.length := List.indexOf_lt_length.mpr hkmem
    have hidx2 : p.indexOf k < (gatherD xs d p).length := by
      simpa [gatherD_length] using hidx
    rw [getD_lt _ _ hidx2, gatherD_getElem _ _ _ hidx hidx2]
    have : p[p.indexOf k] = k := List.getElem_indexOf hidx
    rw [this]
    exact getD_lt xs d h2

theorem gatherD_zipWith {α β γ : Type} (f : α → β → γ) (xs : List α) (ys : List β)
    (dx : α) (dy : β) (dz : γ) (p : List Nat) (hlx : xs.length = ys.length)
    (hp : ∀ i ∈ p, i < xs.length) :
    List.zipWith f (gatherD xs dx p) (gatherD ys dy p) = gatherD (List.zipWith f xs ys) dz p := by
  apply List.ext_getElem
  · simp [gatherD_length, List.length_zipWith, hlx]
  · intro k h1 h2
    have hk : k < p.length := by
      simpa [gatherD_length] using h2
    have hpk : p[k] < xs.length := hp p[k] (List.getElem_mem hk)
    have hpky : p[k] < ys.length := by omega
    have hpkz : p[k] < (List.zipWith f xs ys).length := by
      simp [List.length_zipWith]; omega
    have hgx : k < (gatherD xs dx p).length := by simpa [gatherD_length] using hk
    have hgy : k < (gatherD ys dy p).length := by simpa [gatherD_length] using hk
    have hgz : k < (gatherD (List.zipWith f xs ys) dz p).length := by
      simpa [gatherD_length] using hk
    rw [List.getElem_zipWith]
    rw [gatherD_getElem _ _ _ hk hgx, gatherD_getElem _ _ _ hk hgy,
      gatherD_getElem _ _ _ hk hgz]
    rw [getD_lt _ _ hpk, getD_lt _ _ hpky, getD_lt _ _ hpkz]
    simp [List.getElem_zipWith]

/-! ### VectorSpace (spaces.py) -/

/-- The VectorSpace data as stored by VectorSpace.__init__ (spaces.py):
canonical (non-dual, lexsort-sorted) sectors, co-sorted multiplicities and
slices, and the sort permutation. -/
structure VectorSpace where
  symmetry : Symmetry
  is_real : Bool
  is_dual : Bool
  non_dual_sorted_sectors : List Sector
  sorted_multiplicities : List Int
  sorted_slices : List (Int × Int)
  sector_perm : List Nat
deriving DecidableEq

/-- Modelled from the spec: Symmetry.batch_sector_dim is called in spaces.py
(_calc_slices, test_sanity and the dim property) but no class under src/
defines it (claim C1).  The slice law stated in the spec and in the
VectorSpace.slices docstring, end - start == sector_dim(sector) * mult,
pins it down as the rowwise sector_dim. -/
def Symmetry.batchSectorDim (s : Symmetry) (secs : List Sector) : List Int :=
  secs.map s.sectorDim

/-- Helper of _calc_slices: the cumulative [start, end) layout with the
given starting offset; _calc_slices computes it via cumsum. -/
def slicesFromOffset (off : Int) : List Int → List (Int × Int)
  | [] => []
  | d :: rest => (off, off + d) :: slicesFromOffset (off + d) rest

/-- _calc_slices (spaces.py): contiguous slices of sizes
multiplicities * batch_sector_dim(sectors), in the given (dense) order. -/
def calcSlices (sym : Symmetry) (secs : List Sector) (mults : List Int) : List (Int × Int) :=
  slicesFromOffset 0 (List.zipWith (fun m d => m * d) mults (sym.batchSectorDim secs))

/-- VectorSpace.__init__ (spaces.py), pure layer: the missing
batch_sector_dim is replaced by its spec model inside calcSlices.
With _sector_perm = none the sectors are lexsorted and multiplicities
co-permuted; otherwise inputs are taken as already sorted.  With
_sorted_slices = none the slices are computed in dense (insertion) order
and permuted into canonical order. -/
def vectorSpaceInit (symmetry : Symmetry) (sectors : List Sector)
    (multsOpt : Option (List Int)) (is_real is_dual : Bool)
    (permOpt : Option (List Nat)) (slicesOpt : Option (List (Int × Int))) : VectorSpace :=
  let multiplicities := multsOpt.getD (List.replicate sectors.length 1)
  let perm := match permOpt with
    | none => lexsortPerm sectors
    | some p => p
  let nds := match permOpt with
    | none => gatherD sectors [] perm
    | some _ => sectors
  let smults := match permOpt with
    | none => gatherD multiplicities 0 perm
    | some _ => multiplicities
  let invp := invPerm perm
  let ss := match slicesOpt with
    | none =>
        let dense := match permOpt with
          | none => calcSlices symmetry sectors multiplicities
          | some _ => calcSlices symmetry (gatherD sectors [] invp) (gatherD multiplicities 0 invp)
        gatherD dense (0, 0) perm
    | some s => s
  ⟨symmetry, is_real, is_dual, nds, smults, ss, perm⟩

/-- num_sectors property. -/
def VectorSpace.num_sectors (v : VectorSpace) : Nat := v.non_dual_sorted_sectors.length

/-- _inverse_sector_perm as computed in __init__. -/
def VectorSpace.inverse_sector_perm (v : VectorSpace) : List Nat := invPerm v.sector_perm

/-- The public sectors property: dualize the canonical sectors for a bra
space, then un-sort into insertion order. -/
def VectorSpace.sectors (v : VectorSpace) : List Sector :=
  let res := if v.is_dual then v.symmetry.dualSectors v.non_dual_sorted_sectors
             else v.non_dual_sorted_sectors
  gatherD res [] v.inverse_sector_perm

/-- The public multiplicities property. -/
def VectorSpace.multiplicities (v : VectorSpace) : List Int :=
  gatherD v.sorted_multiplicities 0 v.inverse_sector_perm

/-- The public slices property. -/
def VectorSpace.slices (v : VectorSpace) : List (Int × Int) :=
  gatherD v.sorted_slices (0, 0) v.inverse_sector_perm

/-- The _sorted_sectors property: canonical-order sectors with the duality
of the public view. -/
def VectorSpace.sorted_sectors (v : VectorSpace) : List Sector :=
  if v.is_dual then v.symmetry.dualSectors v.non_dual_sorted_sectors
  else v.non_dual_sorted_sectors

/-- The dim property (its batch_sector_dim call modelled from the spec,
see batchSectorDim): sum of sector_dim * multiplicity over canonical data. -/
def VectorSpace.dim (v : VectorSpace) : Int :=
  (List.zipWith (fun d m => d * m) (v.symmetry.batchSectorDim v.non_dual_sorted_sectors)
    v.sorted_multiplicities).sum

/-- The dual property: a shallow copy with is_dual flipped; all canonical
data is shared. -/
def VectorSpace.dual (v : VectorSpace) : VectorSpace := { v with is_dual := !v.is_dual }

/-! ### Duality (C6) -/

theorem AtomSym.dualSector_nil_atom (g : AtomSym) : g.dualSector [] = [] := by
  cases g <;> rfl

theorem AtomSym.dualSector_length (g : AtomSym) (a : Sector) :
    (g.dualSector a).length = a.length := by
  cases g <;> simp [AtomSym.dualSector]

theorem prodDualSector_nil (fs : List AtomSym) : prodDualSector fs [] = [] := by
  induction fs with
  | nil => rfl
  | cons g gs ih => simp [prodDualSector, AtomSym.dualSector_nil_atom, ih]

theorem Symmetry.dualSector_nil (s : Symmetry) : s.dualSector [] = [] := by
  cases s with
  | atom g => exact g.dualSector_nil_atom
  | prodSym fs => exact prodDualSector_nil fs

theorem npMod_invol {x n : Int} (h0 : 0 ≤ x) (h1 : x < n) :
    npMod (-(npMod (-x) n)) n = x := by
  have hn : n ≠ 0 := by omega
  simp only [npMod, if_neg hn]
  have hdef : (-x) % n = -x - n * ((-x) / n) := Int.emod_def (-x) n
  have h2 : -((-x) % n) = x + n * ((-x) / n) := by rw [hdef]; ring
  rw [h2, Int.add_mul_emod_self_left]
  exact Int.emod_eq_of_lt h0 h1

theorem AtomSym.dualSector_invol_atom (g : AtomSym) (a : Sector)
    (h : g.isValidSector a = true) : g.dualSector (g.dualSector a) = a := by
  cases g with
  | noSymmetry => rfl
  | u1 _ =>
      simp only [AtomSym.dualSector, List.map_map]
      have : ∀ x ∈ a, -(-x) = x := by intro x _; ring
      calc a.map (fun x => -(-x)) = a.map id := List.map_congr_left (by simpa using this)
        _ = a := List.map_id a
  | zN N _ =>
      simp only [AtomSym.isValidSector, Bool.and_eq_true, decide_eq_true_eq] at h
      obtain ⟨hlen, h0, h1⟩ := h
      match a, hlen with
      | [x], _ =>
          simp only [List.headD_cons] at h0 h1
          simp only [AtomSym.dualSector, List.map_cons, List.map_nil]
          rw [npMod_invol h0 h1]
  | su2 _ => rfl
  | fermionParity => rfl

theorem prodDualSector_invol (fs : List AtomSym) (a : Sector)
    (hlen : a.length = fs.length) (h : prodValidParts fs a = true) :
    prodDualSector fs (prodDualSector fs a) = a := by
  induction fs generalizing a with
  | nil =>
      match a, hlen with
      | [], _ => rfl
  | cons g gs ih =>
      simp only [prodValidParts, Bool.and_eq_true] at h
      obtain ⟨hg, hgs⟩ := h
      have hane : a.length = gs.length + 1 := by simpa using hlen
      have htake1 : (a.take 1).length = 1 := by
        simp [List.length_take]; omega
      have hx : (g.dualSector (a.take 1)).length = 1 := by
        rw [AtomSym.dualSector_length]; exact htake1
      obtain ⟨e, he⟩ := List.length_eq_one.mp hx
      have hstep : prodDualSector (g :: gs) a = e :: prodDualSector gs (a.drop 1) := by
        simp only [prodDualSector, he, List.singleton_append]
      rw [hstep]
      simp only [prodDualSector, List.take_cons, List.drop_succ_cons, List.take_zero,
        List.drop_zero]
      rw [show List.take 1 (e :: prodDualSector gs (a.drop 1)) = [e] from rfl]
      rw [show ([e] : List Int) = g.dualSector (a.take 1) from he.symm]
      rw [g.dualSector_invol_atom (a.take 1) hg]
      rw [ih (a.drop 1) (by simp [List.length_drop]; omega) hgs]
      exact List.take_append_drop 1 a

theorem Symmetry.dualSector_invol (s : Symmetry) (a : Sector)
    (h : s.isValidSector a = true) : s.dualSector (s.dualSector a) = a := by
  cases s with
  | atom g => exact g.dualSector_invol_atom a h
  | prodSym fs =>
      simp only [Symmetry.isValidSector, Bool.and_eq_true, decide_eq_true_eq] at h
      exact prodDualSector_invol fs a h.1 h.2

theorem getD_map {α β : Type} (f : α → β) (xs : List α) (d : α) (i : Nat) :
    (xs.map f).getD i (f d) = f (xs.getD i d) := by
  by_cases h : i < xs.length
  · rw [getD_lt _ _ h, getD_lt _ _ (by simpa using h)]
    simp
  · have h1 : xs.length ≤ i := by omega
    rw [List.getD_eq_default _ _ (by simpa using h1), List.getD_eq_default _ _ h1]

theorem gatherD_map {α β : Type} (f : α → β) (xs : List α) (d : α) (idx : List Nat) :
    gatherD (xs.map f) (f d) idx = (gatherD xs d idx).map f := by
  simp only [gatherD, List.map_map]
  apply List.map_congr_left
  intro i _
  exact getD_map f xs d i

theorem mem_gatherD {α : Type} {x : α} {xs : List α} {d : α} {idx : List Nat}
    (h : x ∈ gatherD xs d idx) : x = d ∨ x ∈ xs := by
  simp only [gatherD, List.mem_map] at h
  obtain ⟨i, _, hx⟩ := h
  by_cases hi : i < xs.length
  · right
    rw [← hx, getD_lt _ _ hi]
    exact List.getElem_mem hi
  · left
    rw [← hx, List.getD_eq_default _ _ (by omega)]

/-- Claim C6: for every VectorSpace whose canonical sectors are valid,
space.dual.sectors equals symmetry.dual_sectors(space.sectors) elementwise
in the same order, whichever value is_dual has. -/
theorem C6_dual_space_sectors (v : VectorSpace)
    (hvalid : ∀ s ∈ v.non_dual_sorted_sectors, v.symmetry.isValidSector s = true) :
    v.dual.sectors = v.symmetry.dualSectors v.sectors := by
  have hdualmap : ∀ (l : List Sector),
      gatherD (l.map v.symmetry.dualSector) [] (invPerm v.sector_perm)
        = (gatherD l [] (invPerm v.sector_perm)).map v.symmetry.dualSector := by
    intro l
    have h0 : ([] : Sector) = v.symmetry.dualSector [] := (v.symmetry.dualSector_nil).symm
    calc gatherD (l.map v.symmetry.dualSector) [] (invPerm v.sector_perm)
        = gatherD (l.map v.symmetry.dualSector) (v.symmetry.dualSector []) (invPerm v.sector_perm) := by
          rw [← h0]
      _ = (gatherD l [] (invPerm v.sector_perm)).map v.symmetry.dualSector :=
          gatherD_map _ _ _ _
  cases hdual : v.is_dual with
  | false =>
      simp only [VectorSpace.sectors, VectorSpace.dual, VectorSpace.inverse_sector_perm,
        Symmetry.dualSectors, hdual, Bool.not_false, if_true, if_false]
      exact hdualmap v.non_dual_sorted_sectors
  | true =>
      simp only [VectorSpace.sectors, VectorSpace.dual, VectorSpace.inverse_sector_perm,
        Symmetry.dualSectors, hdual, Bool.not_true, if_true, if_false]
      rw [hdualmap v.non_dual_sorted_sectors, List.map_map]
      have hinv : ∀ x ∈ gatherD v.non_dual_sorted_sectors [] (invPerm v.sector_perm),
          (v.symmetry.dualSector ∘ v.symmetry.dualSector) x = id x := by
        intro x hx
        rcases mem_gatherD hx with hx | hx
        · subst hx
          simp [Symmetry.dualSector_nil]
        · simpa using v.symmetry.dualSector_invol x (hvalid x hx)
      rw [List.map_congr_left hinv, List.map_id]
      simp

/-- Witness for C6 on a concrete bra space over Z2 with sectors [0], [1]. -/
theorem C6_dual_space_sectors_witness :
    (VectorSpace.dual ⟨Symmetry.atom (.zN 2 none), false, true, [[0],[1]], [1,1], [(0,1),(1,2)], [0,1]⟩).sectors
      = (Symmetry.atom (.zN 2 none)).dualSectors
          (VectorSpace.sectors ⟨Symmetry.atom (.zN 2 none), false, true, [[0],[1]], [1,1], [(0,1),(1,2)], [0,1]⟩) :=
  C6_dual_space_sectors _ (by decide)

/-! ### Canonical sector sorting (C3) -/

theorem vectorSpaceInit_general (symmetry : Symmetry) (sectors : List Sector)
    (multsOpt : Option (List Int)) (is_real is_dual : Bool) :
    vectorSpaceInit symmetry sectors multsOpt is_real is_dual none none =
      ⟨symmetry, is_real, is_dual,
        gatherD sectors [] (lexsortPerm sectors),
        gatherD (multsOpt.getD (List.replicate sectors.length 1)) 0 (lexsortPerm sectors),
        gatherD (calcSlices symmetry sectors (multsOpt.getD (List.replicate sectors.length 1)))
          (0, 0) (lexsortPerm sectors),
        lexsortPerm sectors⟩ := rfl

/-- Claim C3 counterexample: constructed over Z2 x Z2 from the unique valid
sectors [0,1], [1,0] (default multiplicity 1), the stored canonical array
_non_dual_sorted_sectors is [[1,0],[0,1]], which is NOT strictly
lexicographically increasing: np.lexsort(sectors.T) uses the LAST charge
column as the primary key. -/
theorem C3_counterexample :
    (vectorSpaceInit (.prodSym [.zN 2 none, .zN 2 none]) [[0,1],[1,0]] none false false
        none none).non_dual_sorted_sectors = [[1,0],[0,1]] ∧
    ¬ List.Pairwise (fun r s => lexLt r s = true)
      (vectorSpaceInit (.prodSym [.zN 2 none, .zN 2 none]) [[0,1],[1,0]] none false false
        none none).non_dual_sorted_sectors := by
  have h : (vectorSpaceInit (.prodSym [.zN 2 none, .zN 2 none]) [[0,1],[1,0]] none false false
      none none).non_dual_sorted_sectors = [[1,0],[0,1]] := by decide
  refine ⟨h, ?_⟩
  intro hp
  rw [h] at hp
  rcases List.pairwise_cons.mp hp with ⟨h1, _⟩
  have h2 := h1 [0,1] (by simp)
  exact absurd h2 (by decide)

/-- Claim C3 (amended): for a VectorSpace constructed through the general
entry point from unique valid sectors in arbitrary order, the stored
canonical sector array is strictly increasing in the np.lexsort key order
(reversed-column lexicographic, last charge component most significant)
and its rows are pairwise distinct.  For symmetries with a single charge
component this is exactly strict lexicographic increase. -/
theorem C3_canonical_sectors_sorted (symmetry : Symmetry) (sectors : List Sector)
    (multsOpt : Option (List Int)) (is_real is_dual : Bool)
    (hnodup : sectors.Nodup)
    (hvalid : ∀ s ∈ sectors, symmetry.isValidSector s = true) :
    List.Pairwise (fun r s => colexLt r s = true)
      (vectorSpaceInit symmetry sectors multsOpt is_real is_dual
        none none).non_dual_sorted_sectors ∧
    (vectorSpaceInit symmetry sectors multsOpt is_real is_dual
        none none).non_dual_sorted_sectors.Nodup := by
  rw [vectorSpaceInit_general]
  simp only
  have hperm := lexsortPerm_perm sectors
  have hpnodup : (lexsortPerm sectors).Nodup := hperm.symm.nodup (List.nodup_range _)
  have hpair := lexsortPerm_pairwise sectors
  have hcomb : List.Pairwise (fun i j => keyLe sectors i j ∧ i ≠ j) (lexsortPerm sectors) :=
    hpair.and hpnodup
  have hstrict : List.Pairwise
      (fun i j => colexLt (sectors.getD i []) (sectors.getD j []) = true) (lexsortPerm sectors) := by
    refine hcomb.imp_of_mem ?_
    intro i j hi hj hij
    obtain ⟨hle, hne⟩ := hij
    have hiin : i < sectors.length := mem_lexsortPerm_lt sectors hi
    have hjin : j < sectors.length := mem_lexsortPerm_lt sectors hj
    have hrowne : sectors.getD i [] ≠ sectors.getD j [] := by
      rw [getD_lt _ _ hiin, getD_lt _ _ hjin]
      intro hcontra
      exact hne ((List.Nodup.getElem_inj_iff hnodup).mp hcontra)
    cases hc : colexLt (sectors.getD i []) (sectors.getD j []) with
    | true => rfl
    | false =>
        unfold keyLe at hle
        exact absurd (colexLt_total hc hle) hrowne
  have hgather : List.Pairwise (fun r s => colexLt r s = true)
      (gatherD sectors [] (lexsortPerm sectors)) := by
    unfold gatherD
    exact List.pairwise_map.mpr hstrict
  refine ⟨hgather, ?_⟩
  refine List.Pairwise.imp ?_ hgather
  intro r s hrs
  intro hcontra
  subst hcontra
  rw [colexLt_irrefl r] at hrs
  exact Bool.noConfusion hrs

/-- Witness for C3 at a concrete input: Z2 sectors given unsorted as
[1], [0]. -/
theorem C3_canonical_sectors_sorted_witness :
    List.Pairwise (fun r s => colexLt r s = true)
      (vectorSpaceInit (.atom (.zN 2 none)) [[1],[0]] none false false
        none none).non_dual_sorted_sectors ∧
    (vectorSpaceInit (.atom (.zN 2 none)) [[1],[0]] none false false
        none none).non_dual_sorted_sectors.Nodup :=
  C3_canonical_sectors_sorted (.atom (.zN 2 none)) [[1],[0]] none false false
    (by decide) (by decide)

/-! ### Slice contiguity (C2) -/

/-- Boolean check that consecutive slices are adjacent: each end equals the
next start. -/
def contiguousB : List (Int × Int) → Bool
  | [] => true
  | [_] => true
  | a :: b :: rest => a.2 = b.1 && contiguousB (b :: rest)

theorem slicesFromOffset_length (off : Int) (l : List Int) :
    (slicesFromOffset off l).length = l.length := by
  induction l generalizing off with
  | nil => rfl
  | cons d rest ih => simp [slicesFromOffset, ih]

theorem slicesFromOffset_contiguous (l : List Int) (off : Int) :
    contiguousB (slicesFromOffset off l) = true := by
  induction l generalizing off with
  | nil => rfl
  | cons d rest ih =>
      cases rest with
      | nil => rfl
      | cons d2 r2 =>
          simp only [slicesFromOffset, contiguousB, Bool.and_eq_true, decide_eq_true_eq]
          exact ⟨by simp, ih (off + d)⟩

theorem slicesFromOffset_getLastD (l : List Int) (off w : Int) :
    ((slicesFromOffset off l).getLastD (w, off)).2 = off + l.sum := by
  induction l generalizing off w with
  | nil => simp [slicesFromOffset]
  | cons d rest ih =>
      simp only [slicesFromOffset, List.getLastD_cons, List.sum_cons]
      rw [ih (off + d) off]
      ring

/-- Claim C2 counterexample: over Z2 with sectors given in insertion order
[1], [0] (default multiplicities), the canonical-order slices
_sorted_slices are [(1,2),(0,1)]: they do not start at 0 and are not
contiguous; contiguity holds for the insertion-order slices view instead. -/
theorem C2_counterexample :
    (vectorSpaceInit (.atom (.zN 2 none)) [[1],[0]] none false false
        none none).sorted_slices = [(1,2),(0,1)] ∧
    ((vectorSpaceInit (.atom (.zN 2 none)) [[1],[0]] none false false
        none none).sorted_slices.headD (0,0)).1 ≠ 0 := by
  refine ⟨by decide, by decide⟩

/-- Claim C2 (amended): for every VectorSpace built through the general
entry point (no precomputed permutation or slices) from a nonempty sector
list with matching multiplicities, the INSERTION-order slices view
(slices = _sorted_slices[_inverse_sector_perm], the one checked by
test_sanity) is contiguous: it starts at 0, each end equals the next
start, and the final end equals dim.  The canonical-order _sorted_slices
are this layout permuted by the sort and need not be contiguous. -/
theorem C2_public_slices_contiguous (symmetry : Symmetry) (sectors : List Sector)
    (multsOpt : Option (List Int)) (is_real is_dual : Bool)
    (hne : sectors ≠ [])
    (hm : ∀ ms, multsOpt = some ms → ms.length = sectors.length) :
    ((vectorSpaceInit symmetry sectors multsOpt is_real is_dual none none).slices.headD
        (0,0)).1 = 0 ∧
    contiguousB (vectorSpaceInit symmetry sectors multsOpt is_real is_dual
        none none).slices = true ∧
    ((vectorSpaceInit symmetry sectors multsOpt is_real is_dual none none).slices.getLastD
        (0,0)).2
      = (vectorSpaceInit symmetry sectors multsOpt is_real is_dual none none).dim := by
  set mults := multsOpt.getD (List.replicate sectors.length 1) with hmdef
  have hmlen : mults.length = sectors.length := by
    cases hcase : multsOpt with
    | none => simp [hmdef, hcase]
    | some ms => simp [hmdef, hcase, hm ms hcase]
  set dims := List.zipWith (fun m d => m * d) mults (symmetry.batchSectorDim sectors)
    with hdims
  have hdimslen : dims.length = sectors.length := by
    simp [hdims, List.length_zipWith, Symmetry.batchSectorDim, hmlen]
  set dense := calcSlices symmetry sectors mults with hdense
  have hdenselen : dense.length = sectors.length := by
    simp [hdense, calcSlices, slicesFromOffset_length, ← hdims, hdimslen]
  have hperm : List.Perm (lexsortPerm sectors) (List.range dense.length) := by
    rw [hdenselen]
    exact lexsortPerm_perm sectors
  have hslices : (vectorSpaceInit symmetry sectors multsOpt is_real is_dual
      none none).slices = dense := by
    rw [vectorSpaceInit_general]
    unfold VectorSpace.slices VectorSpace.inverse_sector_perm
    simp only [← hmdef, ← hdense]
    exact gatherD_gatherD_invPerm dense (0,0) (lexsortPerm sectors) hperm
  have hdim : (vectorSpaceInit symmetry sectors multsOpt is_real is_dual
      none none).dim = dims.sum := by
    rw [vectorSpaceInit_general]
    unfold VectorSpace.dim
    simp only [← hmdef]
    have hbatch : symmetry.batchSectorDim (gatherD sectors [] (lexsortPerm sectors))
        = gatherD (symmetry.batchSectorDim sectors) (symmetry.sectorDim []) (lexsortPerm sectors) := by
      unfold Symmetry.batchSectorDim
      exact (gatherD_map symmetry.sectorDim sectors [] (lexsortPerm sectors)).symm
    rw [hbatch]
    have hzip : List.zipWith (fun d m => d * m)
        (gatherD (symmetry.batchSectorDim sectors) (symmetry.sectorDim []) (lexsortPerm sectors))
        (gatherD mults 0 (lexsortPerm sectors))
        = gatherD (List.zipWith (fun d m => d * m) (symmetry.batchSectorDim sectors) mults)
            (0) (lexsortPerm sectors) := by
      apply gatherD_zipWith
      · simp [Symmetry.batchSectorDim, hmlen]
      · intro i hi
        have := mem_lexsortPerm_lt sectors hi
        simp [Symmetry.batchSectorDim]
        omega
    rw [hzip]
    have hsum : (gatherD (List.zipWith (fun d m => d * m) (symmetry.batchSectorDim sectors) mults)
        0 (lexsortPerm sectors)).sum
        = (List.zipWith (fun d m => d * m) (symmetry.batchSectorDim sectors) mults).sum := by
      apply List.Perm.sum_eq
      apply perm_gatherD
      have hlen2 : (List.zipWith (fun d m => d * m) (symmetry.batchSectorDim sectors) mults).length
          = sectors.length := by
        simp [List.length_zipWith, Symmetry.batchSectorDim, hmlen]
      rw [hlen2]
      exact lexsortPerm_perm sectors
    rw [hsum, hdims]
    congr 1
    exact List.zipWith_comm_of_comm (fun d m => d * m) mul_comm
      (symmetry.batchSectorDim sectors) mults
  rw [hslices, hdim, hdense]
  unfold calcSlices
  rw [← hdims]
  have hdne : dims ≠ [] := by
    intro hc
    apply hne
    have := hdimslen
    rw [hc] at this
    simpa using this.symm
  refine ⟨?_, slicesFromOffset_contiguous dims 0, ?_⟩
  · cases hd : dims with
    | nil => exact absurd hd hdne
    | cons d rest => simp [slicesFromOffset]
  · have h := slicesFromOffset_getLastD dims 0 0
    simpa using h

/-- Witness for C2 at a concrete input: Z2 space with unsorted sectors
[1], [0] and multiplicities 2, 3. -/
theorem C2_public_slices_contiguous_witness :
    ((vectorSpaceInit (.atom (.zN 2 none)) [[1],[0]] (some [2,3]) false false
        none none).slices.headD (0,0)).1 = 0 ∧
    contiguousB (vectorSpaceInit (.atom (.zN 2 none)) [[1],[0]] (some [2,3]) false false
        none none).slices = true ∧
    ((vectorSpaceInit (.atom (.zN 2 none)) [[1],[0]] (some [2,3]) false false
        none none).slices.getLastD (0,0)).2
      = (vectorSpaceInit (.atom (.zN 2 none)) [[1],[0]] (some [2,3]) false false
        none none).dim :=
  C2_public_slices_contiguous (.atom (.zN 2 none)) [[1],[0]] (some [2,3]) false false
    (by decide) (by intro ms hms; cases hms; rfl)

/-! ### parse_index (C7) -/

/-- bisect.bisect (bisect_right) on a sorted ascending list: the number of
entries that are at most x, i.e. the rightmost insertion point. -/
def bisectRight (l : List Int) (x : Int) : Nat :=
  (l.takeWhile (fun a => a ≤ x)).length

/-- Python list indexing with negative wraparound: l[i] is l[i + len(l)]
for negative i; out of bounds raises IndexError. -/
def pyGet {α : Type} (l : List α) (i : Int) : Except PyErr α :=
  let j := if i < 0 then i + l.length else i
  if h : 0 ≤ j ∧ j.toNat < l.length then .ok (l.get ⟨j.toNat, h.2⟩) else .error .indexError

/-- The body of parse_index after the range check and Python-style
translation of negative indices: sector_idx = bisect(slices[:,0], idx) - 1
and the offset within the sector is idx - slices[sector_idx, 0]. -/
def VectorSpace.parse_index_in_range (v : VectorSpace) (idx2 : Int) :
    Except PyErr (Int × Int) :=
  match pyGet v.slices ((bisectRight (v.slices.map Prod.fst) idx2 : Int) - 1) with
  | .error e => .error e
  | .ok sl => .ok ((bisectRight (v.slices.map Prod.fst) idx2 : Int) - 1, idx2 - sl.1)

/-- VectorSpace.parse_index (spaces.py): raise IndexError unless
-dim <= idx < dim, translate a negative index by adding dim, then split
via binary search over the slice starts. -/
def VectorSpace.parse_index (v : VectorSpace) (idx : Int) : Except PyErr (Int × Int) :=
  if ¬ (-v.dim ≤ idx ∧ idx < v.dim) then .error .indexError
  else v.parse_index_in_range (if idx < 0 then idx + v.dim else idx)

/-- Claim C7: parse_index raises an out-of-range IndexError whenever
|idx| > dim; an in-range negative index is translated Python-style by
adding dim; and on a trivial-symmetry space of dimension 8 built as one
sector with multiplicity 8, parse_index 5 = (0,5), parse_index (-1) =
(0,7), and parse_index 8 raises IndexError. -/
theorem C7_parse_index :
    (∀ (v : VectorSpace) (idx : Int), v.dim < |idx| →
      v.parse_index idx = .error .indexError) ∧
    (∀ (v : VectorSpace) (idx : Int), -v.dim ≤ idx → idx < 0 →
      v.parse_index idx = v.parse_index (idx + v.dim)) ∧
    (vectorSpaceInit (.atom .noSymmetry) [[0]] (some [8]) false false
        none none).parse_index 5 = .ok (0, 5) ∧
    (vectorSpaceInit (.atom .noSymmetry) [[0]] (some [8]) false false
        none none).parse_index (-1) = .ok (0, 7) ∧
    (vectorSpaceInit (.atom .noSymmetry) [[0]] (some [8]) false false
        none none).parse_index 8 = .error .indexError := by
  refine ⟨?_, ?_, rfl, rfl, rfl⟩
  · intro v idx h
    have hc : ¬ (-v.dim ≤ idx ∧ idx < v.dim) := by
      rcases abs_cases idx with ⟨heq, h2⟩ | ⟨heq, h2⟩ <;> (rw [heq] at h; omega)
    unfold VectorSpace.parse_index
    rw [if_pos hc]
  · intro v idx h1 h2
    have hdim : 0 < v.dim := by omega
    have hPa : -v.dim ≤ idx ∧ idx < v.dim := ⟨h1, by omega⟩
    have hPb : -v.dim ≤ idx + v.dim ∧ idx + v.dim < v.dim := ⟨by omega, by omega⟩
    unfold VectorSpace.parse_index
    rw [if_neg (not_not_intro hPa), if_neg (not_not_intro hPb)]
    rw [if_pos h2, if_neg (by omega : ¬ idx + v.dim < 0)]

/-- Witness for the quantified parts of C7 on the concrete dimension-8
space: index 9 is out of range, index -3 is translated by adding dim. -/
theorem C7_parse_index_witness :
    (vectorSpaceInit (.atom .noSymmetry) [[0]] (some [8]) false false
        none none).parse_index 9 = .error .indexError ∧
    (vectorSpaceInit (.atom .noSymmetry) [[0]] (some [8]) false false
        none none).parse_index (-3)
      = (vectorSpaceInit (.atom .noSymmetry) [[0]] (some [8]) false false
        none none).parse_index
          ((-3) + (vectorSpaceInit (.atom .noSymmetry) [[0]] (some [8]) false false
            none none).dim) :=
  ⟨C7_parse_index.1 _ 9 (by decide), (C7_parse_index.2.1) _ (-3) (by decide) (by decide)⟩

/-! ### Python attribute resolution on Symmetry instances (C1, C5) -/

/-- The attribute names resolvable on any Symmetry instance: the instance
attributes set in Symmetry.__init__ plus the methods defined on the
Symmetry base class in groups.py. -/
def symmetryBaseAttrs : List String :=
  ["fusion_style", "braiding_style", "trivial_sector", "group_name", "num_sectors",
   "descriptive_name", "sector_ind_len", "is_abelian",
   "is_valid_sector", "fusion_outcomes", "fusion_outcomes_broadcast", "sector_dim",
   "sector_str", "is_same_symmetry", "dual_sector", "dual_sectors", "n_symbol",
   "all_sectors"]

/-- Additional attributes contributed by the concrete subclass: only
ZNSymmetry.__init__ stores an extra attribute (N); the other concrete
classes only override methods already named in the base class. -/
def AtomSym.extraAttrs : AtomSym → List String
  | .zN _ _ => ["N"]
  | _ => []

/-- All attribute names resolvable on an instance: ProductSymmetry
additionally stores factors and sector_slices. -/
def Symmetry.attrNames : Symmetry → List String
  | .atom g => symmetryBaseAttrs ++ g.extraAttrs
  | .prodSym _ => symmetryBaseAttrs ++ ["factors", "sector_slices"]

/-- Python attribute lookup on a symmetry instance: AttributeError when the
name is defined by no class in groups.py. -/
def Symmetry.getattrCheck (s : Symmetry) (name : String) : Except PyErr Unit :=
  if name ∈ s.attrNames then .ok () else .error (.attributeError name)

theorem batch_sector_dim_not_defined (s : Symmetry) :
    s.getattrCheck "batch_sector_dim" = .error (.attributeError "batch_sector_dim") := by
  cases s with
  | atom g => cases g <;> rfl
  | prodSym fs => rfl

theorem n_symbol_underscore_not_defined (s : Symmetry) :
    s.getattrCheck "_n_symbol" = .error (.attributeError "_n_symbol") := by
  cases s with
  | atom g => cases g <;> rfl
  | prodSym fs => rfl

/-- The slices stage of VectorSpace.__init__ as executed: when
_sorted_slices is not given, _calc_slices runs and its
symmetry.batch_sector_dim attribute access comes first (and fails); when
given, its length is asserted. -/
def vsInitExecSlices (symmetry : Symmetry) (sectors : List Sector)
    (multsOpt : Option (List Int)) (is_real is_dual : Bool)
    (permOpt : Option (List Nat)) (slicesOpt : Option (List (Int × Int))) :
    Except PyErr VectorSpace :=
  match slicesOpt with
  | none =>
      match symmetry.getattrCheck "batch_sector_dim" with
      | .error e => .error e
      | .ok _ => .ok (vectorSpaceInit symmetry sectors multsOpt is_real is_dual permOpt slicesOpt)
  | some s =>
      if s.length = sectors.length then
        .ok (vectorSpaceInit symmetry sectors multsOpt is_real is_dual permOpt slicesOpt)
      else .error .assertionError

/-- The permutation stage of VectorSpace.__init__ as executed: a given
_sector_perm must have the length of sectors. -/
def vsInitExecPerm (symmetry : Symmetry) (sectors : List Sector)
    (multsOpt : Option (List Int)) (is_real is_dual : Bool)
    (permOpt : Option (List Nat)) (slicesOpt : Option (List (Int × Int))) :
    Except PyErr VectorSpace :=
  match permOpt with
  | some p =>
      if p.length = sectors.length then
        vsInitExecSlices symmetry sectors multsOpt is_real is_dual permOpt slicesOpt
      else .error .assertionError
  | none => vsInitExecSlices symmetry sectors multsOpt is_real is_dual permOpt slicesOpt

/-- VectorSpace.__init__ as executed: the assert statements of the source
(length of multiplicities, of _sector_perm, of _sorted_slices) become
AssertionError, in source order, and the missing batch_sector_dim
attribute surfaces whenever _sorted_slices is not precomputed. -/
def vectorSpaceInitExec (symmetry : Symmetry) (sectors : List Sector)
    (multsOpt : Option (List Int)) (is_real is_dual : Bool)
    (permOpt : Option (List Nat)) (slicesOpt : Option (List (Int × Int))) :
    Except PyErr VectorSpace :=
  match multsOpt with
  | some ms =>
      if ms.length = sectors.length then
        vsInitExecPerm symmetry sectors multsOpt is_real is_dual permOpt slicesOpt
      else .error .assertionError
  | none => vsInitExecPerm symmetry sectors multsOpt is_real is_dual permOpt slicesOpt

/-- The dim property as executed: the symmetry.batch_sector_dim attribute
access raises AttributeError before anything is computed. -/
def VectorSpace.dimExec (v : VectorSpace) : Except PyErr Int :=
  match v.symmetry.getattrCheck "batch_sector_dim" with
  | .error e => .error e
  | .ok _ => .ok v.dim

/-- Claim C1: for every symmetry variant and every sector/multiplicity
input (with well-formed lengths, so that the assert statements pass),
calling VectorSpace.__init__ without the _sorted_slices argument raises
AttributeError for batch_sector_dim, and every read of the dim property
raises the same AttributeError: no class in groups.py defines
batch_sector_dim. -/
theorem C1_batch_sector_dim_attribute_error :
    (∀ (symmetry : Symmetry) (sectors : List Sector) (multsOpt : Option (List Int))
        (is_real is_dual : Bool) (permOpt : Option (List Nat)),
      (∀ ms, multsOpt = some ms → ms.length = sectors.length) →
      (∀ p, permOpt = some p → p.length = sectors.length) →
      vectorSpaceInitExec symmetry sectors multsOpt is_real is_dual permOpt none
        = .error (.attributeError "batch_sector_dim")) ∧
    (∀ v : VectorSpace, v.dimExec = .error (.attributeError "batch_sector_dim")) := by
  constructor
  · intro symmetry sectors multsOpt is_real is_dual permOpt hm hp
    have hslices : ∀ (mo : Option (List Int)) (po : Option (List Nat)),
        vsInitExecSlices symmetry sectors mo is_real is_dual po none
          = .error (.attributeError "batch_sector_dim") := by
      intro mo po
      unfold vsInitExecSlices
      rw [batch_sector_dim_not_defined]
    have hperm : ∀ (mo : Option (List Int)),
        vsInitExecPerm symmetry sectors mo is_real is_dual permOpt none
          = .error (.attributeError "batch_sector_dim") := by
      intro mo
      cases hc : permOpt with
      | none => exact hslices mo none
      | some p =>
          show (if p.length = sectors.length then
              vsInitExecSlices symmetry sectors mo is_real is_dual (some p) none
            else .error .assertionError) = _
          rw [if_pos (hp p hc)]
          exact hslices mo (some p)
    cases hc : multsOpt with
    | none => exact hperm none
    | some ms =>
        show (if ms.length = sectors.length then
            vsInitExecPerm symmetry sectors (some ms) is_real is_dual permOpt none
          else .error .assertionError) = _
        rw [if_pos (hm ms hc)]
        exact hperm (some ms)
  · intro v
    unfold VectorSpace.dimExec
    rw [batch_sector_dim_not_defined]

/-- Witness for C1: a concrete Z2 construction and a concrete dim read. -/
theorem C1_batch_sector_dim_attribute_error_witness :
    vectorSpaceInitExec (.atom (.zN 2 none)) [[0],[1]] (some [1,2]) false false none none
      = .error (.attributeError "batch_sector_dim") ∧
    VectorSpace.dimExec ⟨.atom (.zN 2 none), false, false, [[0],[1]], [1,2], [(0,1),(1,3)], [0,1]⟩
      = .error (.attributeError "batch_sector_dim") :=
  ⟨C1_batch_sector_dim_attribute_error.1 (.atom (.zN 2 none)) [[0],[1]] (some [1,2])
      false false none (by intro ms hms; cases hms; rfl) (by intro p hp; cases hp),
    C1_batch_sector_dim_attribute_error.2 _⟩

/-! ### is_subspace_of (C8) -/

/-- The merge-scan loop of is_subspace_of (spaces.py): iterate over the
entries of other's canonical data; at each iteration first read self's
n-th canonical sector (IndexError when self has no sectors left to read,
i.e. a zero-sector self with nonempty other); on an exact match check
multiplicity dominance and advance; return True as soon as every sector
of self has been matched, False when other is exhausted. -/
def subspaceLoop (selfS : List Sector) (selfM : List Int) :
    Nat → List (Sector × Int) → Except PyErr Bool
  | _, [] => .ok false
  | n, (os, om) :: rest =>
      if hn : n < selfS.length then
        if selfS[n] = os then
          if hm : n < selfM.length then
            if selfM[n] > om then .ok false
            else if n + 1 = selfS.length then .ok true
            else subspaceLoop selfS selfM (n + 1) rest
          else .error .indexError
        else if n = selfS.length then .ok true
        else subspaceLoop selfS selfM n rest
      else .error .indexError

/-- VectorSpace.is_subspace_of (spaces.py): False on differing is_dual or
symmetry, else the sorted merge-scan over both canonical arrays. -/
def VectorSpace.is_subspace_of (v other : VectorSpace) : Except PyErr Bool :=
  if v.is_dual ≠ other.is_dual then .ok false
  else if ¬ (v.symmetry.pyEq other.symmetry = true) then .ok false
  else subspaceLoop v.non_dual_sorted_sectors v.sorted_multiplicities 0
    (List.zip other.non_dual_sorted_sectors other.sorted_multiplicities)

/-- The claim-side subspace predicate: same is_dual flag, same symmetry,
and every canonical (sector, multiplicity) pair of self appears among
other's canonical pairs with multiplicity at most other's. -/
def subspacePredB (v other : VectorSpace) : Bool :=
  (v.is_dual == other.is_dual) && v.symmetry.pyEq other.symmetry &&
    (List.zip v.non_dual_sorted_sectors v.sorted_multiplicities).all (fun p =>
      (List.zip other.non_dual_sorted_sectors other.sorted_multiplicities).any (fun q =>
        q.1 = p.1 && p.2 ≤ q.2))

/-- Claim C8 counterexample: two zero-sector Z2 spaces with equal is_dual
and equal symmetry.  Every canonical sector of self (vacuously) appears in
other with dominated multiplicity, so the claimed iff demands True, but
the code returns False: the loop body never runs and the final return
False is reached. -/
theorem C8_counterexample :
    VectorSpace.is_subspace_of
        ⟨.atom (.zN 2 none), false, false, [], [], [], []⟩
        ⟨.atom (.zN 2 none), false, false, [], [], [], []⟩ = .ok false ∧
    subspacePredB ⟨.atom (.zN 2 none), false, false, [], [], [], []⟩
        ⟨.atom (.zN 2 none), false, false, [], [], [], []⟩ = true :=
  ⟨rfl, rfl⟩

/-- Structural restatement of the merge-scan: the remaining canonical
entries of self paired with the remaining entries of other. -/
def subspaceScan : List (Sector × Int) → List (Sector × Int) → Bool
  | _, [] => false
  | [], _ :: _ => false
  | p :: ps, (os, om) :: rest =>
      if p.1 = os then
        if p.2 > om then false
        else match ps with
          | [] => true
          | _ :: _ => subspaceScan ps rest
      else subspaceScan (p :: ps) rest

theorem subspaceLoop_eq_scan (selfS : List Sector) (selfM : List Int)
    (hlen : selfM.length = selfS.length) :
    ∀ (otherL : List (Sector × Int)) (n : Nat), n < selfS.length →
      subspaceLoop selfS selfM n otherL
        = .ok (subspaceScan ((List.zip selfS selfM).drop n) otherL) := by
  have hzlen : (List.zip selfS selfM).length = selfS.length := by
    simp [List.length_zip, hlen]
  intro otherL
  induction otherL with
  | nil =>
      intro n hn
      have hne : (List.zip selfS selfM).drop n ≠ [] := by
        intro hc
        rw [List.drop_eq_nil_iff] at hc
        omega
      cases hd : (List.zip selfS selfM).drop n with
      | nil => exact absurd hd hne
      | cons p ps => rfl
  | cons q rest ih =>
      intro n hn
      obtain ⟨os, om⟩ := q
      have hzn : n < (List.zip selfS selfM).length := by omega
      have hm : n < selfM.length := by omega
      have hdrop : (List.zip selfS selfM).drop n
          = (List.zip selfS selfM)[n] :: (List.zip selfS selfM).drop (n + 1) :=
        List.drop_eq_getElem_cons hzn
      have hzel : (List.zip selfS selfM)[n] = (selfS[n], selfM[n]) := by
        simp [List.getElem_zip]
      simp only [subspaceLoop]
      rw [dif_pos hn, hdrop, hzel]
      by_cases heq : selfS[n] = os
      · rw [if_pos heq, dif_pos hm]
        by_cases hmb : selfM[n] > om
        · rw [if_pos hmb]
          simp [subspaceScan, heq, hmb]
        · rw [if_neg hmb]
          by_cases hlast : n + 1 = selfS.length
          · rw [if_pos hlast]
            have hde : (List.zip selfS selfM).drop (n + 1) = [] := by
              rw [List.drop_eq_nil_iff]
              omega
            rw [hde]
            simp [subspaceScan, heq, hmb]
          · rw [if_neg hlast]
            have hlt : n + 1 < selfS.length := by omega
            rw [ih (n + 1) hlt]
            have hde : (List.zip selfS selfM).drop (n + 1) ≠ [] := by
              intro hc
              rw [List.drop_eq_nil_iff] at hc
              omega
            cases hd2 : (List.zip selfS selfM).drop (n + 1) with
            | nil => exact absurd hd2 hde
            | cons p2 ps2 => simp [subspaceScan, heq, hmb]
      · rw [if_neg heq, if_neg (by omega : ¬ n = selfS.length)]
        rw [ih n hn]
        simp only [subspaceScan, heq]
        rw [hdrop, hzel]
        simp [subspaceScan, heq]

theorem colexLt_asymm {a b : List Int} (h : colexLt a b = true) : colexLt b a = false :=
  lexLt_asymm h

theorem subspaceScan_spec :
    ∀ (otherL selfL : List (Sector × Int)), selfL ≠ [] →
      List.Pairwise (fun p q => colexLt p.1 q.1 = true) selfL →
      List.Pairwise (fun p q => colexLt p.1 q.1 = true) otherL →
      (subspaceScan selfL otherL = true ↔
        ∀ p ∈ selfL, ∃ q ∈ otherL, q.1 = p.1 ∧ p.2 ≤ q.2) := by
  intro otherL
  induction otherL with
  | nil =>
      intro selfL hne hs ho
      cases selfL with
      | nil => exact absurd rfl hne
      | cons p ps =>
          constructor
          · intro h
            exact absurd h (by simp [subspaceScan])
          · intro h
            obtain ⟨q, hq, _⟩ := h p (by simp)
            exact absurd hq (by simp)
  | cons q0 rest ih =>
      intro selfL hne hs ho
      obtain ⟨os, om⟩ := q0
      cases selfL with
      | nil => exact absurd rfl hne
      | cons p ps =>
          rcases List.pairwise_cons.mp hs with ⟨hsp, hsps⟩
          rcases List.pairwise_cons.mp ho with ⟨hop, horest⟩
          by_cases heq : p.1 = os
          · by_cases hmb : p.2 > om
            · have hscan : subspaceScan (p :: ps) ((os, om) :: rest) = false := by
                simp [subspaceScan, heq, hmb]
              rw [hscan]
              constructor
              · intro h
                exact absurd h (by simp)
              · intro h
                obtain ⟨q, hq, hq1, hq2⟩ := h p (by simp)
                rcases List.mem_cons.mp hq with hqh | hqr
                · subst hqh
                  simp only at hq2
                  omega
                · have hlt := hop q hqr
                  rw [hq1, heq] at hlt
                  rw [colexLt_irrefl] at hlt
                  exact Bool.noConfusion hlt
            · cases hps : ps with
              | nil =>
                  subst hps
                  have hscan : subspaceScan [p] ((os, om) :: rest) = true := by
                    simp [subspaceScan, heq, hmb]
                  rw [hscan]
                  constructor
                  · intro _ p2 hp2
                    rw [List.mem_singleton] at hp2
                    subst hp2
                    exact ⟨(os, om), by simp, heq.symm, by omega⟩
                  · intro _
                    rfl
              | cons p2 ps2 =>
                  subst hps
                  have hscan : subspaceScan (p :: p2 :: ps2) ((os, om) :: rest)
                      = subspaceScan (p2 :: ps2) rest := by
                    simp [subspaceScan, heq, hmb]
                  rw [hscan]
                  rw [ih (p2 :: ps2) (List.cons_ne_nil _ _) hsps horest]
                  constructor
                  · intro h
                    intro x hx
                    rcases List.mem_cons.mp hx with hxp | hxps
                    · subst hxp
                      exact ⟨(os, om), by simp, heq.symm, by omega⟩
                    · obtain ⟨q, hq, hq1, hq2⟩ := h x hxps
                      exact ⟨q, List.mem_cons_of_mem _ hq, hq1, hq2⟩
                  · intro h x hx
                    obtain ⟨q, hq, hq1, hq2⟩ := h x (List.mem_cons_of_mem _ hx)
                    rcases List.mem_cons.mp hq with hqh | hqr
                    · subst hqh
                      have hlt := hsp x hx
                      simp only at hq1
                      rw [← hq1, heq] at hlt
                      rw [colexLt_irrefl] at hlt
                      exact Bool.noConfusion hlt
                    · exact ⟨q, hqr, hq1, hq2⟩
          · have hscan : subspaceScan (p :: ps) ((os, om) :: rest)
                = subspaceScan (p :: ps) rest := by
              simp [subspaceScan, heq]
            rw [hscan]
            rw [ih (p :: ps) (List.cons_ne_nil _ _) hs horest]
            constructor
            · intro h x hx
              obtain ⟨q, hq, hq1, hq2⟩ := h x hx
              exact ⟨q, List.mem_cons_of_mem _ hq, hq1, hq2⟩
            · intro h x hx
              obtain ⟨q, hq, hq1, hq2⟩ := h x hx
              rcases List.mem_cons.mp hq with hqh | hqr
              · exfalso
                subst hqh
                simp only at hq1
                obtain ⟨qp, hqp, hqp1, _⟩ := h p (by simp)
                rcases List.mem_cons.mp hqp with hqph | hqpr
                · subst hqph
                  simp only at hqp1
                  exact heq hqp1.symm
                · have hlt1 := hop qp hqpr
                  rw [hqp1] at hlt1
                  rcases List.mem_cons.mp hx with hxp | hxps
                  · subst hxp
                    exact heq hq1.symm
                  · have hlt2 := hsp x hxps
                    rw [← hq1] at hlt2
                    have hasym := colexLt_asymm hlt1
                    rw [hasym] at hlt2
                    exact Bool.noConfusion hlt2
              · exact ⟨q, hqr, hq1, hq2⟩

theorem zip_pairwise_fst {β : Type} (l₁ : List Sector) (l₂ : List β)
    (h : List.Pairwise (fun r s => colexLt r s = true) l₁) :
    List.Pairwise (fun p q => colexLt p.1 q.1 = true) (List.zip l₁ l₂) := by
  rw [List.pairwise_iff_getElem] at h ⊢
  intro i j hi hj hij
  have hi1 : i < l₁.length := by simp [List.length_zip] at hi; omega
  have hj1 : j < l₁.length := by simp [List.length_zip] at hj; omega
  simp only [List.getElem_zip]
  exact h i j hi1 hj1 hij

/-- Claim C8 (amended): for spaces with well-formed canonical data (self
has at least one sector, multiplicities match sectors in length, both
canonical arrays strictly sorted in the np.lexsort order as construction
guarantees), is_subspace_of computes exactly the claimed predicate: same
is_dual flag and symmetry, and every canonical sector of self present
among other's canonical sectors with multiplicity at most other's.  For a
zero-sector self the code instead returns False even when the predicate
holds (see the counterexample), or raises IndexError when other is
nonempty. -/
theorem C8_is_subspace_of (v other : VectorSpace)
    (hself : 0 < v.non_dual_sorted_sectors.length)
    (hmv : v.sorted_multiplicities.length = v.non_dual_sorted_sectors.length)
    (hsv : List.Pairwise (fun r s => colexLt r s = true) v.non_dual_sorted_sectors)
    (hso : List.Pairwise (fun r s => colexLt r s = true) other.non_dual_sorted_sectors) :
    v.is_subspace_of other = .ok (subspacePredB v other) := by
  unfold VectorSpace.is_subspace_of subspacePredB
  by_cases hd : v.is_dual = other.is_dual
  · rw [if_neg (by simp [hd])]
    by_cases hsym : v.symmetry.pyEq other.symmetry = true
    · rw [if_neg (by simp [hsym])]
      rw [subspaceLoop_eq_scan v.non_dual_sorted_sectors v.sorted_multiplicities hmv
        (List.zip other.non_dual_sorted_sectors other.sorted_multiplicities) 0 hself]
      simp only [List.drop_zero]
      congr 1
      have hbeq : (v.is_dual == other.is_dual) = true := by simp [hd]
      rw [hbeq, hsym]
      simp only [Bool.true_and]
      have hne : List.zip v.non_dual_sorted_sectors v.sorted_multiplicities ≠ [] := by
        intro hc
        have h2 := congrArg List.length hc
        rw [List.length_zip, hmv] at h2
        simp only [min_self, List.length_nil] at h2
        omega
      have hzs := zip_pairwise_fst v.non_dual_sorted_sectors v.sorted_multiplicities hsv
      have hzo := zip_pairwise_fst other.non_dual_sorted_sectors other.sorted_multiplicities hso
      cases hscan : subspaceScan
          (List.zip v.non_dual_sorted_sectors v.sorted_multiplicities)
          (List.zip other.non_dual_sorted_sectors other.sorted_multiplicities) with
      | true =>
          have hP := (subspaceScan_spec _ _ hne hzs hzo).mp hscan
          symm
          rw [List.all_eq_true]
          intro p hp
          obtain ⟨q, hq, h1, h2⟩ := hP p hp
          rw [List.any_eq_true]
          exact ⟨q, hq, by simp [h1, h2]⟩
      | false =>
          symm
          rw [Bool.eq_false_iff]
          intro hall
          have hP : ∀ p ∈ List.zip v.non_dual_sorted_sectors v.sorted_multiplicities,
              ∃ q ∈ List.zip other.non_dual_sorted_sectors other.sorted_multiplicities,
                q.1 = p.1 ∧ p.2 ≤ q.2 := by
            intro p hp
            have := List.all_eq_true.mp hall p hp
            rw [List.any_eq_true] at this
            obtain ⟨q, hq, hqc⟩ := this
            simp only [Bool.and_eq_true, decide_eq_true_eq] at hqc
            exact ⟨q, hq, hqc.1, hqc.2⟩
          have := (subspaceScan_spec _ _ hne hzs hzo).mpr hP
          rw [hscan] at this
          exact Bool.noConfusion this
    · rw [if_pos hsym]
      have hpf : v.symmetry.pyEq other.symmetry = false := by
        cases hc : v.symmetry.pyEq other.symmetry with
        | true => exact absurd hc hsym
        | false => rfl
      rw [hpf]
      simp
  · rw [if_pos hd]
    have hbeq : (v.is_dual == other.is_dual) = false := by
      simp [hd]
    rw [hbeq]
    simp

/-- Witness for C8 on the Z2 scenario of the claim: other has sectors
[0]: 3, [1]: 2; the space with [0]: 2, [1]: 1 is a subspace; the space
with [0]: 2, [1]: 3 is not. -/
theorem C8_is_subspace_of_witness :
    VectorSpace.is_subspace_of
        ⟨.atom (.zN 2 none), false, false, [[0],[1]], [2,1], [(0,2),(2,3)], [0,1]⟩
        ⟨.atom (.zN 2 none), false, false, [[0],[1]], [3,2], [(0,3),(3,5)], [0,1]⟩
      = .ok true ∧
    VectorSpace.is_subspace_of
        ⟨.atom (.zN 2 none), false, false, [[0],[1]], [2,3], [(0,2),(2,5)], [0,1]⟩
        ⟨.atom (.zN 2 none), false, false, [[0],[1]], [3,2], [(0,3),(3,5)], [0,1]⟩
      = .ok false := by
  constructor
  · rw [C8_is_subspace_of _ _ (by decide) (by decide) (by decide) (by decide)]
    rfl
  · rw [C8_is_subspace_of _ _ (by decide) (by decide) (by decide) (by decide)]
    rfl

/-! ### Fusion of spaces (C4, C5): the Python dict and _fuse_spaces -/

/-- A Python dict with sector keys and integer values: an insertion-ordered
association list whose keys are unique. -/
abbrev PyDict := List (Sector × Int)

/-- d.get(k): the value at the first (only) occurrence of the key. -/
def dget : PyDict → Sector → Option Int
  | [], _ => none
  | (k0, v0) :: rest, c => if k0 = c then some v0 else dget rest c

/-- new_fusion[t_c] = new_fusion.get(t_c, 0) + inc: update an existing key
in place, append a new key. -/
def dinsertAdd : PyDict → Sector → Int → PyDict
  | [], k, inc => [(k, inc)]
  | (k0, v0) :: rest, k, inc =>
      if k0 = k then (k0, v0 + inc) :: rest
      else (k0, v0) :: dinsertAdd rest k inc

/-- d[k] = v: overwrite an existing key in place, append a new key. -/
def dinsertSet : PyDict → Sector → Int → PyDict
  | [], k, v => [(k, v)]
  | (k0, v0) :: rest, k, v =>
      if k0 = k then (k0, v) :: rest
      else (k0, v0) :: dinsertSet rest k v

/-- The dict comprehension building the initial fusion dict from zipped
sectors and multiplicities. -/
def dictOfEntries (es : List (Sector × Int)) : PyDict :=
  es.foldl (fun d p => dinsertSet d p.1 p.2) []

/-- Keys of a dict are pairwise distinct. -/
def nodupKeys (d : PyDict) : Prop := (d.map Prod.fst).Nodup

/-- Innermost loop of _fuse_spaces: over the fusion outcomes s_c of
(s_a, s_b), look up the n-symbol and accumulate m_a * m_b * n. -/
def fuseOutcomesLoop (nsym : Sector → Sector → Sector → Except PyErr Int)
    (s_a : Sector) (m_a : Int) (s_b : Sector) (m_b : Int) :
    List Sector → PyDict → Except PyErr PyDict
  | [], acc => .ok acc
  | s_c :: cs, acc =>
      match nsym s_a s_b s_c with
      | .error e => .error e
      | .ok n => fuseOutcomesLoop nsym s_a m_a s_b m_b cs (dinsertAdd acc s_c (m_a * m_b * n))

/-- Middle loop of _fuse_spaces: over the (sector, multiplicity) entries of
the next space. -/
def fuseBLoop (sym : Symmetry) (nsym : Sector → Sector → Sector → Except PyErr Int)
    (s_a : Sector) (m_a : Int) :
    List (Sector × Int) → PyDict → Except PyErr PyDict
  | [], acc => .ok acc
  | (s_b, m_b) :: bs, acc =>
      match fuseOutcomesLoop nsym s_a m_a s_b m_b (sym.fusionOutcomes s_a s_b) acc with
      | .error e => .error e
      | .ok acc2 => fuseBLoop sym nsym s_a m_a bs acc2

/-- Outer loop of _fuse_spaces: over the entries of the current fusion
dict, building new_fusion. -/
def fuseALoop (sym : Symmetry) (nsym : Sector → Sector → Sector → Except PyErr Int)
    (bs : List (Sector × Int)) :
    List (Sector × Int) → PyDict → Except PyErr PyDict
  | [], acc => .ok acc
  | (s_a, m_a) :: arest, acc =>
      match fuseBLoop sym nsym s_a m_a bs acc with
      | .error e => .error e
      | .ok acc2 => fuseALoop sym nsym bs arest acc2

/-- One `for space in spaces[1:]` iteration: fusion = new_fusion where
new_fusion starts empty. -/
def fuseStep (sym : Symmetry) (nsym : Sector → Sector → Sector → Except PyErr Int)
    (d : PyDict) (bs : List (Sector × Int)) : Except PyErr PyDict :=
  fuseALoop sym nsym bs d []

/-- zip(space._sorted_sectors, space._sorted_multiplicities). -/
def spaceEntries (s : VectorSpace) : List (Sector × Int) :=
  List.zip s.sorted_sectors s.sorted_multiplicities

/-- Iterate fuseStep over the remaining spaces. -/
def fuseSpacesLoop (sym : Symmetry) (nsym : Sector → Sector → Sector → Except PyErr Int) :
    List VectorSpace → PyDict → Except PyErr PyDict
  | [], d => .ok d
  | sp :: rest, d =>
      match fuseStep sym nsym d (spaceEntries sp) with
      | .error e => .error e
      | .ok d2 => fuseSpacesLoop sym nsym rest d2

/-- Sort the dict entries by np.lexsort over the keys (the final
non_dual_sectors[sort], multiplicities[sort] of _fuse_spaces). -/
def sortEntries (d : PyDict) : PyDict :=
  gatherD d ([], 0) (lexsortPerm (d.map Prod.fst))

/-- _fuse_spaces (spaces.py): with _is_dual the duals of the spaces are
fused directly; the fusion dict starts from spaces[0] and folds in each
further space; the accumulated outcomes are returned sorted by np.lexsort
on the keys.  The n-symbol lookup is a parameter so that both the
executed form (missing _n_symbol attribute, C5) and the spec-modelled
form (C4) are instances of the same translation. -/
def fuse_spaces (sym : Symmetry) (nsym : Sector → Sector → Sector → Except PyErr Int)
    (spaces : List VectorSpace) (is_dual : Bool) : Except PyErr PyDict :=
  let spaces2 := if is_dual then spaces.map VectorSpace.dual else spaces
  match spaces2 with
  | [] => .error .indexError
  | sp0 :: rest =>
      match fuseSpacesLoop sym nsym rest (dictOfEntries (spaceEntries sp0)) with
      | .error e => .error e
      | .ok d => .ok (sortEntries d)

/-- Modelled from the spec: symmetry._n_symbol is called in _fuse_spaces
(spaces.py line 864) but defined nowhere under src/ (claim C5); the spec
fixes the accumulated weight as multiplicity_a * multiplicity_b * N^{ab}_c
with N the symmetry's n_symbol, so the modelled lookup is n_symbol itself
(for SU(2) it raises NotImplementedError). -/
def nSymbolModelled (sym : Symmetry) : Sector → Sector → Sector → Except PyErr Int :=
  sym.nSymbol

/-- The executed lookup: getattr(symmetry, "_n_symbol") raises
AttributeError before any n-symbol is computed. -/
def nSymbolExec (sym : Symmetry) : Sector → Sector → Sector → Except PyErr Int :=
  fun a b c =>
    match sym.getattrCheck "_n_symbol" with
    | .error e => .error e
    | .ok _ => sym.nSymbol a b c

/-- ProductSpace.__init__ (pure layer, default backend, no precomputed
sectors, with the missing _n_symbol and batch_sector_dim modelled from
the spec): assert shared symmetry (Python ==) and shared is_real over the
factors, fuse, then call VectorSpace.__init__ with the sorted fused data,
_sector_perm = arange and _sorted_slices = None. -/
def mkProductSpace (spaces : List VectorSpace) (isDualOpt : Option Bool) :
    Except PyErr VectorSpace :=
  match spaces with
  | [] => .error .indexError
  | sp0 :: _ =>
      if ¬ (spaces.all (fun s => s.symmetry.pyEq sp0.symmetry) = true) then
        .error .assertionError
      else if ¬ (spaces.all (fun s => s.is_real == sp0.is_real) = true) then
        .error .assertionError
      else
        match fuse_spaces sp0.symmetry (nSymbolModelled sp0.symmetry) spaces
            (isDualOpt.getD sp0.is_dual) with
        | .error e => .error e
        | .ok d =>
            .ok (vectorSpaceInit sp0.symmetry (d.map Prod.fst) (some (d.map Prod.snd))
              sp0.is_real (isDualOpt.getD sp0.is_dual) (some (List.range d.length)) none)

/-- ProductSpace.__init__ as executed (no backend, no precomputed
sectors): _fuse_spaces runs with the real _n_symbol attribute lookup, and
VectorSpace.__init__ computes slices through the real batch_sector_dim
attribute lookup. -/
def mkProductSpaceExec (spaces : List VectorSpace) (isDualOpt : Option Bool) :
    Except PyErr VectorSpace :=
  match spaces with
  | [] => .error .indexError
  | sp0 :: _ =>
      if ¬ (spaces.all (fun s => s.symmetry.pyEq sp0.symmetry) = true) then
        .error .assertionError
      else if ¬ (spaces.all (fun s => s.is_real == sp0.is_real) = true) then
        .error .assertionError
      else
        match fuse_spaces sp0.symmetry (nSymbolExec sp0.symmetry) spaces
            (isDualOpt.getD sp0.is_dual) with
        | .error e => .error e
        | .ok d =>
            vectorSpaceInitExec sp0.symmetry (d.map Prod.fst) (some (d.map Prod.snd))
              sp0.is_real (isDualOpt.getD sp0.is_dual) (some (List.range d.length)) none

/-! ### Normal form of the fusion fold -/

/-- The increments contributed by one (s_a, s_b) pair: one (key, weight)
per fusion outcome. -/
def collectOutcomes (nsym : Sector → Sector → Sector → Except PyErr Int)
    (s_a : Sector) (m_a : Int) (s_b : Sector) (m_b : Int) :
    List Sector → Except PyErr (List (Sector × Int))
  | [] => .ok []
  | c :: cs =>
      match nsym s_a s_b c with
      | .error e => .error e
      | .ok n =>
          match collectOutcomes nsym s_a m_a s_b m_b cs with
          | .error e => .error e
          | .ok incs => .ok ((c, m_a * m_b * n) :: incs)

/-- The increments contributed by one dict entry against all entries of
the next space. -/
def collectPairIncs (sym : Symmetry) (nsym : Sector → Sector → Sector → Except PyErr Int)
    (s_a : Sector) (m_a : Int) :
    List (Sector × Int) → Except PyErr (List (Sector × Int))
  | [] => .ok []
  | (s_b, m_b) :: bs =>
      match collectOutcomes nsym s_a m_a s_b m_b (sym.fusionOutcomes s_a s_b) with
      | .error e => .error e
      | .ok i1 =>
          match collectPairIncs sym nsym s_a m_a bs with
          | .error e => .error e
          | .ok i2 => .ok (i1 ++ i2)

/-- All increments of one fuseStep, in iteration order. -/
def collectAll (sym : Symmetry) (nsym : Sector → Sector → Sector → Except PyErr Int)
    (bs : List (Sector × Int)) :
    List (Sector × Int) → Except PyErr (List (Sector × Int))
  | [] => .ok []
  | (s_a, m_a) :: arest =>
      match collectPairIncs sym nsym s_a m_a bs with
      | .error e => .error e
      | .ok i1 =>
          match collectAll sym nsym bs arest with
          | .error e => .error e
          | .ok i2 => .ok (i1 ++ i2)

/-- Apply a list of keyed increments to a dict, in order. -/
def applyIncs (acc : PyDict) (incs : List (Sector × Int)) : PyDict :=
  incs.foldl (fun d p => dinsertAdd d p.1 p.2) acc

theorem applyIncs_append (acc : PyDict) (i1 i2 : List (Sector × Int)) :
    applyIncs acc (i1 ++ i2) = applyIncs (applyIncs acc i1) i2 :=
  List.foldl_append _ _ _ _

theorem fuseOutcomesLoop_norm (nsym : Sector → Sector → Sector → Except PyErr Int)
    (s_a : Sector) (m_a : Int) (s_b : Sector) (m_b : Int) :
    ∀ (cs : List Sector) (acc : PyDict),
      fuseOutcomesLoop nsym s_a m_a s_b m_b cs acc
        = match collectOutcomes nsym s_a m_a s_b m_b cs with
          | .error e => .error e
          | .ok incs => .ok (applyIncs acc incs) := by
  intro cs
  induction cs with
  | nil => intro acc; rfl
  | cons c cs ih =>
      intro acc
      simp only [fuseOutcomesLoop, collectOutcomes]
      cases hcase : nsym s_a s_b c with
      | error e => rfl
      | ok n =>
          refine (ih (dinsertAdd acc c (m_a * m_b * n))).trans ?_
          cases hc2 : collectOutcomes nsym s_a m_a s_b m_b cs with
          | error e => rfl
          | ok incs => rfl

theorem fuseBLoop_norm (sym : Symmetry) (nsym : Sector → Sector → Sector → Except PyErr Int)
    (s_a : Sector) (m_a : Int) :
    ∀ (bs : List (Sector × Int)) (acc : PyDict),
      fuseBLoop sym nsym s_a m_a bs acc
        = match collectPairIncs sym nsym s_a m_a bs with
          | .error e => .error e
          | .ok incs => .ok (applyIncs acc incs) := by
  intro bs
  induction bs with
  | nil => intro acc; rfl
  | cons b bs ih =>
      intro acc
      obtain ⟨s_b, m_b⟩ := b
      simp only [fuseBLoop, collectPairIncs]
      rw [fuseOutcomesLoop_norm]
      cases hc1 : collectOutcomes nsym s_a m_a s_b m_b (sym.fusionOutcomes s_a s_b) with
      | error e => rfl
      | ok i1 =>
          refine (ih (applyIncs acc i1)).trans ?_
          cases hc2 : collectPairIncs sym nsym s_a m_a bs with
          | error e => rfl
          | ok i2 => exact congrArg Except.ok (applyIncs_append acc i1 i2).symm

theorem fuseALoop_norm (sym : Symmetry) (nsym : Sector → Sector → Sector → Except PyErr Int)
    (bs : List (Sector × Int)) :
    ∀ (arest : List (Sector × Int)) (acc : PyDict),
      fuseALoop sym nsym bs arest acc
        = match collectAll sym nsym bs arest with
          | .error e => .error e
          | .ok incs => .ok (applyIncs acc incs) := by
  intro arest
  induction arest with
  | nil => intro acc; rfl
  | cons a arest ih =>
      intro acc
      obtain ⟨s_a, m_a⟩ := a
      simp only [fuseALoop, collectAll]
      rw [fuseBLoop_norm]
      cases hc1 : collectPairIncs sym nsym s_a m_a bs with
      | error e => rfl
      | ok i1 =>
          refine (ih (applyIncs acc i1)).trans ?_
          cases hc2 : collectAll sym nsym bs arest with
          | error e => rfl
          | ok i2 => exact congrArg Except.ok (applyIncs_append acc i1 i2).symm

theorem fuseStep_norm (sym : Symmetry) (nsym : Sector → Sector → Sector → Except PyErr Int)
    (d : PyDict) (bs : List (Sector × Int)) :
    fuseStep sym nsym d bs
      = match collectAll sym nsym bs d with
        | .error e => .error e
        | .ok incs => .ok (applyIncs [] incs) :=
  fuseALoop_norm sym nsym bs d []

/-! ### Dict lookup reasoning -/

theorem dget_dinsertAdd (d : PyDict) (k : Sector) (inc : Int) (c : Sector) :
    dget (dinsertAdd d k inc) c
      = if k = c then some ((dget d c).getD 0 + inc) else dget d c := by
  induction d with
  | nil =>
      by_cases h : k = c <;> simp [dinsertAdd, dget, h]
  | cons p rest ih =>
      obtain ⟨k0, v0⟩ := p
      by_cases h0 : k0 = k
      · subst h0
        by_cases hc : k0 = c
        · subst hc
          simp [dinsertAdd, dget]
        · simp [dinsertAdd, dget, hc]
      · by_cases hc : k0 = c
        · subst hc
          have hkc : ¬ k = k0 := fun h => h0 h.symm
          simp [dinsertAdd, dget, h0, hkc]
        · simp [dinsertAdd, dget, h0, hc, ih]

/-- Total increment that a list of keyed increments adds at a key. -/
def incsSum (incs : List (Sector × Int)) (c : Sector) : Int :=
  ((incs.filter (fun p => p.1 = c)).map Prod.snd).sum

/-- Whether any increment touches the key. -/
def hasKeyB (incs : List (Sector × Int)) (c : Sector) : Bool :=
  incs.any (fun p => p.1 = c)

theorem incsSum_of_not_hasKey {incs : List (Sector × Int)} {c : Sector}
    (h : hasKeyB incs c = false) : incsSum incs c = 0 := by
  unfold hasKeyB at h
  unfold incsSum
  have hfil : incs.filter (fun p => decide (p.1 = c)) = [] := by
    rw [List.filter_eq_nil_iff]
    intro p hp
    intro hd
    rw [List.any_eq_false] at h
    exact absurd hd (h p hp)
  rw [hfil]
  rfl

theorem dget_applyIncs (incs : List (Sector × Int)) :
    ∀ (acc : PyDict) (c : Sector),
      dget (applyIncs acc incs) c
        = if hasKeyB incs c then some ((dget acc c).getD 0 + incsSum incs c)
          else dget acc c := by
  induction incs with
  | nil =>
      intro acc c
      simp [applyIncs, hasKeyB, incsSum]
  | cons p rest ih =>
      intro acc c
      obtain ⟨k, v⟩ := p
      show dget (applyIncs (dinsertAdd acc k v) rest) c = _
      rw [ih]
      by_cases hk : k = c
      · subst hk
        cases hhr : hasKeyB rest k with
        | false =>
            rw [if_neg (by simp [hhr])]
            rw [dget_dinsertAdd, if_pos rfl]
            have h1 : hasKeyB ((k, v) :: rest) k = true := by
              simp [hasKeyB]
            rw [if_pos h1]
            have h2 : incsSum ((k, v) :: rest) k = v + incsSum rest k := by
              simp [incsSum]
            rw [h2, incsSum_of_not_hasKey hhr]
            ring_nf
        | true =>
            rw [if_pos (by simp [hhr])]
            rw [dget_dinsertAdd, if_pos rfl]
            have h1 : hasKeyB ((k, v) :: rest) k = true := by
              simp [hasKeyB]
            rw [if_pos h1]
            have h2 : incsSum ((k, v) :: rest) k = v + incsSum rest k := by
              simp [incsSum]
            rw [h2]
            simp only [Option.getD_some]
            congr 1
            ring
      · have h1 : hasKeyB ((k, v) :: rest) c = hasKeyB rest c := by
          simp [hasKeyB, hk]
        have h2 : incsSum ((k, v) :: rest) c = incsSum rest c := by
          simp [incsSum, hk]
        rw [h1, h2, dget_dinsertAdd, if_neg hk]

theorem keys_dinsertAdd (d : PyDict) (k : Sector) (inc : Int) :
    (dinsertAdd d k inc).map Prod.fst
      = if k ∈ d.map Prod.fst then d.map Prod.fst else d.map Prod.fst ++ [k] := by
  induction d with
  | nil => simp [dinsertAdd]
  | cons p rest ih =>
      obtain ⟨k0, v0⟩ := p
      by_cases h0 : k0 = k
      · subst h0
        simp [dinsertAdd]
      · have hne : ¬ k = k0 := fun h => h0 h.symm
        by_cases hk : k ∈ rest.map Prod.fst
        · simp [dinsertAdd, h0, ih, hk, hne]
        · simp [dinsertAdd, h0, ih, hk, hne]

theorem nodupKeys_dinsertAdd {d : PyDict} (h : nodupKeys d) (k : Sector) (inc : Int) :
    nodupKeys (dinsertAdd d k inc) := by
  unfold nodupKeys at h ⊢
  rw [keys_dinsertAdd]
  by_cases hk : k ∈ d.map Prod.fst
  · rw [if_pos hk]; exact h
  · rw [if_neg hk]
    rw [List.nodup_append]
    exact ⟨h, List.nodup_singleton k, by simpa using hk⟩

theorem nodupKeys_applyIncs (incs : List (Sector × Int)) :
    ∀ {acc : PyDict}, nodupKeys acc → nodupKeys (applyIncs acc incs) := by
  induction incs with
  | nil => intro acc h; exact h
  | cons p rest ih =>
      intro acc h
      exact ih (nodupKeys_dinsertAdd h p.1 p.2)

theorem dget_eq_some_of_mem : ∀ {d : PyDict}, nodupKeys d → ∀ {k : Sector} {v : Int},
    (k, v) ∈ d → dget d k = some v := by
  intro d
  induction d with
  | nil => intro _ k v h; exact absurd h (List.not_mem_nil _)
  | cons p rest ih =>
      intro hnd k v h
      obtain ⟨k0, v0⟩ := p
      unfold nodupKeys at hnd
      rw [List.map_cons, List.nodup_cons] at hnd
      rcases List.mem_cons.mp h with hh | ht
      · injection hh with h1 h2
        subst h1; subst h2
        simp [dget]
      · have hk0 : k0 ≠ k := by
          intro hc
          subst hc
          exact hnd.1 (List.mem_map.mpr ⟨(k0, v), ht, rfl⟩)
        simp only [dget, if_neg hk0]
        exact ih hnd.2 ht

theorem mem_of_dget_eq_some : ∀ {d : PyDict} {k : Sector} {v : Int},
    dget d k = some v → (k, v) ∈ d := by
  intro d
  induction d with
  | nil => intro k v h; exact absurd h (by simp [dget])
  | cons p rest ih =>
      intro k v h
      obtain ⟨k0, v0⟩ := p
      by_cases h0 : k0 = k
      · subst h0
        simp only [dget, if_pos rfl] at h
        injection h with h1
        subst h1
        exact List.mem_cons_self _ _
      · simp only [dget, if_neg h0] at h
        exact List.mem_cons_of_mem _ (ih h)

theorem dget_eq_none_iff (d : PyDict) (k : Sector) :
    dget d k = none ↔ k ∉ d.map Prod.fst := by
  induction d with
  | nil => simp [dget]
  | cons p rest ih =>
      obtain ⟨k0, v0⟩ := p
      by_cases h0 : k0 = k
      · subst h0
        simp [dget]
      · have hk : k ≠ k0 := fun h => h0 h.symm
        simp only [dget, if_neg h0, List.map_cons, List.mem_cons]
        rw [ih]
        tauto

theorem dget_perm {d₁ d₂ : PyDict} (hp : List.Perm d₁ d₂) (hnd : nodupKeys d₁)
    (c : Sector) : dget d₁ c = dget d₂ c := by
  have hnd₂ : nodupKeys d₂ := (hp.map Prod.fst).nodup hnd
  cases hg : dget d₁ c with
  | some v =>
      exact (dget_eq_some_of_mem hnd₂ (hp.mem_iff.mp (mem_of_dget_eq_some hg))).symm
  | none =>
      rw [dget_eq_none_iff] at hg
      symm
      rw [dget_eq_none_iff]
      intro hc
      exact hg ((hp.map Prod.fst).mem_iff.mpr hc)

/-! ### Sorted dicts are determined by their lookup function -/

/-- Weak key order between dict entries: the later key is not strictly
smaller in the np.lexsort order. -/
def weakKeyLe (p q : Sector × Int) : Prop := colexLt q.1 p.1 = false

theorem sorted_nodup_dict_ext :
    ∀ (d₁ d₂ : PyDict), nodupKeys d₁ → nodupKeys d₂ →
      List.Pairwise weakKeyLe d₁ → List.Pairwise weakKeyLe d₂ →
      (∀ c, dget d₁ c = dget d₂ c) → d₁ = d₂ := by
  intro d₁
  induction d₁ with
  | nil =>
      intro d₂ _ _ _ _ hg
      cases d₂ with
      | nil => rfl
      | cons q rest₂ =>
          have h := hg q.1
          rw [show dget [] q.1 = none from rfl] at h
          have h2 : dget (q :: rest₂) q.1 = some q.2 := by
            obtain ⟨qk, qv⟩ := q
            simp [dget]
          rw [h2] at h
          exact Option.noConfusion h
  | cons p rest ih =>
      intro d₂ hnd₁ hnd₂ hs₁ hs₂ hg
      obtain ⟨pk, pv⟩ := p
      cases d₂ with
      | nil =>
          have h := hg pk
          rw [show dget ((pk, pv) :: rest) pk = some pv by simp [dget]] at h
          rw [show dget [] pk = none from rfl] at h
          exact Option.noConfusion h
      | cons q rest₂ =>
          obtain ⟨qk, qv⟩ := q
          unfold nodupKeys at hnd₁ hnd₂
          rw [List.map_cons, List.nodup_cons] at hnd₁ hnd₂
          rcases List.pairwise_cons.mp hs₁ with ⟨hsp₁, hrest₁⟩
          rcases List.pairwise_cons.mp hs₂ with ⟨hsp₂, hrest₂⟩
          have hkeys : qk = pk ∧ qv = pv := by
            have hgp := hg pk
            rw [show dget ((pk, pv) :: rest) pk = some pv by simp [dget]] at hgp
            by_cases hqp : qk = pk
            · subst hqp
              rw [show dget ((qk, qv) :: rest₂) qk = some qv by simp [dget]] at hgp
              injection hgp.symm with hv
              exact ⟨rfl, hv⟩
            · exfalso
              rw [show dget ((qk, qv) :: rest₂) pk = dget rest₂ pk by simp [dget, hqp]] at hgp
              have hmem₂ : (pk, pv) ∈ rest₂ := mem_of_dget_eq_some hgp.symm
              have hle₂ : colexLt pk qk = false := hsp₂ (pk, pv) hmem₂
              have hgq := hg qk
              rw [show dget ((qk, qv) :: rest₂) qk = some qv by simp [dget]] at hgq
              have hpq : ¬ pk = qk := fun h => hqp h.symm
              rw [show dget ((pk, pv) :: rest) qk = dget rest qk by simp [dget, hpq]] at hgq
              have hmem₁ : (qk, qv) ∈ rest := mem_of_dget_eq_some hgq
              have hle₁ : colexLt qk pk = false := hsp₁ (qk, qv) hmem₁
              exact hqp (colexLt_total hle₁ hle₂)
          obtain ⟨hk, hv⟩ := hkeys
          subst hk; subst hv
          congr 1
          apply ih rest₂ hnd₁.2 hnd₂.2 hrest₁ hrest₂
          intro c
          by_cases hc : c = qk
          · subst hc
            have h₁ : dget rest c = none := by
              rw [dget_eq_none_iff]
              intro hc2
              exact hnd₁.1 hc2
            have h₂ : dget rest₂ c = none := by
              rw [dget_eq_none_iff]
              intro hc2
              exact hnd₂.1 hc2
            rw [h₁, h₂]
          · have hqc : ¬ qk = c := fun h => hc h.symm
            have h := hg c
            rw [show dget ((qk, qv) :: rest) c = dget rest c by simp [dget, hqc]] at h
            rw [show dget ((qk, qv) :: rest₂) c = dget rest₂ c by simp [dget, hqc]] at h
            exact h

theorem sortEntries_perm (d : PyDict) : List.Perm (sortEntries d) d := by
  unfold sortEntries
  apply perm_gatherD
  have h := lexsortPerm_perm (d.map Prod.fst)
  simpa using h

theorem sortEntries_sorted (d : PyDict) : List.Pairwise weakKeyLe (sortEntries d) := by
  unfold sortEntries gatherD
  rw [List.pairwise_map]
  have hpair := lexsortPerm_pairwise (d.map Prod.fst)
  refine hpair.imp ?_
  intro i j hij
  unfold keyLe at hij
  unfold weakKeyLe
  have h1 : ∀ m : Nat, (d.map Prod.fst).getD m [] = (d.getD m ([], 0)).1 := by
    intro m
    have h := getD_map Prod.fst d ([], 0) m
    simpa using h
  rw [h1 i, h1 j] at hij
  exact hij

theorem nodupKeys_sortEntries {d : PyDict} (h : nodupKeys d) : nodupKeys (sortEntries d) :=
  ((sortEntries_perm d).map Prod.fst).symm.nodup h

theorem hasKeyB_perm {i₁ i₂ : List (Sector × Int)} (h : List.Perm i₁ i₂) (c : Sector) :
    hasKeyB i₁ c = hasKeyB i₂ c := by
  unfold hasKeyB
  cases hh : i₂.any (fun p => decide (p.1 = c)) with
  | true =>
      rw [List.any_eq_true] at hh ⊢
      obtain ⟨p, hp, hpc⟩ := hh
      exact ⟨p, h.mem_iff.mpr hp, hpc⟩
  | false =>
      rw [List.any_eq_false] at hh ⊢
      intro p hp
      exact hh p (h.mem_iff.mp hp)

theorem incsSum_perm {i₁ i₂ : List (Sector × Int)} (h : List.Perm i₁ i₂) (c : Sector) :
    incsSum i₁ c = incsSum i₂ c := by
  unfold incsSum
  exact ((h.filter _).map _).sum_eq

/-- Building a Python dict from entries with pairwise distinct keys gives
back exactly those entries. -/
theorem dinsertSet_append {acc : PyDict} {k : Sector} (v : Int)
    (h : k ∉ acc.map Prod.fst) : dinsertSet acc k v = acc ++ [(k, v)] := by
  induction acc with
  | nil => rfl
  | cons p rest ih =>
      obtain ⟨k0, v0⟩ := p
      rw [List.map_cons, List.mem_cons] at h
      push_neg at h
      have h0 : ¬ k0 = k := fun hc => h.1 hc.symm
      simp only [dinsertSet, if_neg h0, List.cons_append]
      rw [ih h.2]

theorem dictOfEntries_id : ∀ (es : List (Sector × Int)), nodupKeys es →
    dictOfEntries es = es := by
  have hgen : ∀ (es : List (Sector × Int)) (acc : PyDict),
      (∀ p ∈ es, p.1 ∉ acc.map Prod.fst) → nodupKeys es →
      es.foldl (fun d p => dinsertSet d p.1 p.2) acc = acc ++ es := by
    intro es
    induction es with
    | nil => intro acc _ _; simp
    | cons p rest ih =>
        intro acc hdisj hnd
        obtain ⟨k, v⟩ := p
        unfold nodupKeys at hnd
        rw [List.map_cons, List.nodup_cons] at hnd
        simp only [List.foldl_cons]
        rw [dinsertSet_append v (hdisj (k, v) (List.mem_cons_self _ _))]
        rw [ih (acc ++ [(k, v)]) ?_ hnd.2]
        · simp
        · intro q hq
          rw [List.map_append, List.mem_append]
          push_neg
          constructor
          · exact hdisj q (List.mem_cons_of_mem _ hq)
          · simp only [List.map_cons, List.map_nil, List.mem_singleton]
            intro hc
            exact hnd.1 (by rw [← hc]; exact List.mem_map.mpr ⟨q, hq, rfl⟩)
  intro es hnd
  exact hgen es [] (by intro p _; simp) hnd

/-! ### Error characterization of the fusion fold -/

theorem prodFusionStyle_ne_general (fs : List AtomSym) : prodFusionStyle fs ≠ .general := by
  unfold prodFusionStyle
  have hstep : ∀ (gs : List AtomSym) (init : FusionStyle), init ≠ .general →
      gs.foldl (fun acc f => if acc.value < f.fusionStyle.value then f.fusionStyle else acc)
        init ≠ .general := by
    intro gs
    induction gs with
    | nil => intro init h; exact h
    | cons g rest ih =>
        intro init h
        simp only [List.foldl_cons]
        apply ih
        split
        · cases g <;> (intro hc; exact FusionStyle.noConfusion hc)
        · exact h
  exact hstep fs .single (fun hc => FusionStyle.noConfusion hc)

theorem nSymbol_error {sym : Symmetry} {a b c : Sector} {e : PyErr}
    (h : sym.nSymbol a b c = .error e) : e = .notImplementedError := by
  cases sym with
  | atom g =>
      cases g <;> simp only [Symmetry.nSymbol, AtomSym.nSymbol] at h <;>
        first
          | exact Except.noConfusion h
          | (injection h with h2; exact h2.symm)
  | prodSym fs =>
      simp only [Symmetry.nSymbol] at h
      split at h
      · exact absurd h (by simp)
      · rename_i hstyle
        push_neg at hstyle
        have hg : prodFusionStyle fs = .general := by
          cases hc : prodFusionStyle fs with
          | single => exact absurd hc hstyle.1
          | multiple_unique => exact absurd hc hstyle.2
          | general => rfl
        exact absurd hg (prodFusionStyle_ne_general fs)

theorem collectOutcomes_error {nsym : Sector → Sector → Sector → Except PyErr Int} {E : PyErr}
    (herr : ∀ a b c e, nsym a b c = .error e → e = E)
    {s_a : Sector} {m_a : Int} {s_b : Sector} {m_b : Int} :
    ∀ {cs : List Sector} {e : PyErr},
      collectOutcomes nsym s_a m_a s_b m_b cs = .error e → e = E := by
  intro cs
  induction cs with
  | nil => intro e h; exact absurd h (by simp [collectOutcomes])
  | cons c cs ih =>
      intro e h
      simp only [collectOutcomes] at h
      split at h
      · rename_i e2 hn
        injection h with h2
        subst h2
        exact herr _ _ _ _ hn
      · split at h
        · rename_i e2 hn
          injection h with h2
          subst h2
          exact ih hn
        · exact Except.noConfusion h

theorem collectPairIncs_error (sym : Symmetry)
    {nsym : Sector → Sector → Sector → Except PyErr Int} {E : PyErr}
    (herr : ∀ a b c e, nsym a b c = .error e → e = E)
    {s_a : Sector} {m_a : Int} :
    ∀ {bs : List (Sector × Int)} {e : PyErr},
      collectPairIncs sym nsym s_a m_a bs = .error e → e = E := by
  intro bs
  induction bs with
  | nil => intro e h; exact absurd h (by simp [collectPairIncs])
  | cons b bs ih =>
      intro e h
      obtain ⟨s_b, m_b⟩ := b
      simp only [collectPairIncs] at h
      split at h
      · rename_i e2 hn
        injection h with h2
        subst h2
        exact collectOutcomes_error herr hn
      · split at h
        · rename_i e2 hn
          injection h with h2
          subst h2
          exact ih hn
        · exact Except.noConfusion h

theorem collectAll_error (sym : Symmetry)
    {nsym : Sector → Sector → Sector → Except PyErr Int} {E : PyErr}
    (herr : ∀ a b c e, nsym a b c = .error e → e = E)
    (bs : List (Sector × Int)) :
    ∀ {d : List (Sector × Int)} {e : PyErr},
      collectAll sym nsym bs d = .error e → e = E := by
  intro d
  induction d with
  | nil => intro e h; exact absurd h (by simp [collectAll])
  | cons p rest ih =>
      intro e h
      obtain ⟨k, m⟩ := p
      simp only [collectAll] at h
      split at h
      · rename_i e2 hn
        injection h with h2
        subst h2
        exact collectPairIncs_error sym herr hn
      · split at h
        · rename_i e2 hn
          injection h with h2
          subst h2
          exact ih hn
        · exact Except.noConfusion h

/-- Value of an Except, with a default in the error case. -/
def exOk {X : Type} : Except PyErr X → X → X
  | .ok x, _ => x
  | .error _, dflt => dflt

theorem collectAll_ok_flatMap (sym : Symmetry)
    (nsym : Sector → Sector → Sector → Except PyErr Int) (bs : List (Sector × Int)) :
    ∀ (d : List (Sector × Int)),
      (∀ p ∈ d, ∃ i1, collectPairIncs sym nsym p.1 p.2 bs = .ok i1) →
      collectAll sym nsym bs d
        = .ok (d.flatMap (fun p => exOk (collectPairIncs sym nsym p.1 p.2 bs) [])) := by
  intro d
  induction d with
  | nil => intro _; rfl
  | cons p rest ih =>
      intro h
      obtain ⟨i1, hi1⟩ := h p (List.mem_cons_self _ _)
      obtain ⟨k, m⟩ := p
      simp only [collectAll, List.flatMap_cons]
      rw [hi1, ih (fun q hq => h q (List.mem_cons_of_mem _ hq))]
      rfl

theorem collectAll_error_of_mem (sym : Symmetry)
    (nsym : Sector → Sector → Sector → Except PyErr Int) (bs : List (Sector × Int)) :
    ∀ {d : List (Sector × Int)} {p : Sector × Int}, p ∈ d →
      (∀ i1, ¬ collectPairIncs sym nsym p.1 p.2 bs = .ok i1) →
      ∃ e, collectAll sym nsym bs d = .error e := by
  intro d
  induction d with
  | nil => intro p h; exact absurd h (List.not_mem_nil p)
  | cons q rest ih =>
      intro p hp hbad
      obtain ⟨qk, qm⟩ := q
      cases hc : collectPairIncs sym nsym qk qm bs with
      | error e => exact ⟨e, by simp only [collectAll]; rw [hc]⟩
      | ok i1 =>
          rcases List.mem_cons.mp hp with hph | hpr
          · subst hph
            exact absurd hc (hbad i1)
          · obtain ⟨e, he⟩ := ih hpr hbad
            exact ⟨e, by simp only [collectAll]; rw [hc, he]⟩

/-- The sorted result of a fuseStep depends on the fusion dict only
through its entry multiset: permuted dicts give identical errors or
identical sorted outputs. -/
theorem fuseStep_sortEntries_congr (sym : Symmetry)
    (nsym : Sector → Sector → Sector → Except PyErr Int) {E : PyErr}
    (herr : ∀ a b c e, nsym a b c = .error e → e = E)
    (bs : List (Sector × Int)) {d₁ d₂ : PyDict} (hp : List.Perm d₁ d₂) :
    (fuseStep sym nsym d₁ bs).map sortEntries
      = (fuseStep sym nsym d₂ bs).map sortEntries := by
  rw [fuseStep_norm, fuseStep_norm]
  by_cases hok : ∀ p ∈ d₁, ∃ i1, collectPairIncs sym nsym p.1 p.2 bs = .ok i1
  · have hok₂ : ∀ p ∈ d₂, ∃ i1, collectPairIncs sym nsym p.1 p.2 bs = .ok i1 :=
      fun p hmem => hok p (hp.mem_iff.mpr hmem)
    rw [collectAll_ok_flatMap sym nsym bs d₁ hok, collectAll_ok_flatMap sym nsym bs d₂ hok₂]
    show Except.ok (sortEntries (applyIncs []
        (d₁.flatMap (fun p => exOk (collectPairIncs sym nsym p.1 p.2 bs) []))))
      = Except.ok (sortEntries (applyIncs []
        (d₂.flatMap (fun p => exOk (collectPairIncs sym nsym p.1 p.2 bs) []))))
    congr 1
    have hnil : nodupKeys ([] : PyDict) := by simp [nodupKeys]
    have hincs : List.Perm
        (d₁.flatMap (fun p => exOk (collectPairIncs sym nsym p.1 p.2 bs) []))
        (d₂.flatMap (fun p => exOk (collectPairIncs sym nsym p.1 p.2 bs) [])) :=
      hp.flatMap_right _
    apply sorted_nodup_dict_ext
    · exact nodupKeys_sortEntries (nodupKeys_applyIncs _ hnil)
    · exact nodupKeys_sortEntries (nodupKeys_applyIncs _ hnil)
    · exact sortEntries_sorted _
    · exact sortEntries_sorted _
    · intro c
      rw [dget_perm (sortEntries_perm _) (nodupKeys_sortEntries (nodupKeys_applyIncs _ hnil)) c]
      rw [dget_perm (sortEntries_perm _) (nodupKeys_sortEntries (nodupKeys_applyIncs _ hnil)) c]
      rw [dget_applyIncs, dget_applyIncs]
      rw [hasKeyB_perm hincs c, incsSum_perm hincs c]
  · push_neg at hok
    obtain ⟨p, hpmem, hbad⟩ := hok
    obtain ⟨e₁, he₁⟩ := collectAll_error_of_mem sym nsym bs hpmem hbad
    obtain ⟨e₂, he₂⟩ := collectAll_error_of_mem sym nsym bs (hp.mem_iff.mp hpmem) hbad
    have hE₁ : e₁ = E := collectAll_error sym herr bs he₁
    have hE₂ : e₂ = E := collectAll_error sym herr bs he₂
    rw [he₁, he₂, hE₁, hE₂]

/-! ### ProductSpace associativity (C4) -/

theorem AtomSym.pyEq_refl_atom (g : AtomSym) : g.pyEq g = true := by
  cases g <;> simp [AtomSym.pyEq, AtomSym.isSame]

theorem zip_self_eq {α : Type} : ∀ {fs : List α} {p : α × α}, p ∈ List.zip fs fs → p.1 = p.2 := by
  intro fs
  induction fs with
  | nil => intro p h; exact absurd h (List.not_mem_nil p)
  | cons f rest ih =>
      intro p h
      rw [List.zip_cons_cons, List.mem_cons] at h
      rcases h with h | h
      · subst h; rfl
      · exact ih h

theorem Symmetry.pyEq_refl (s : Symmetry) : s.pyEq s = true := by
  cases s with
  | atom g => exact g.pyEq_refl_atom
  | prodSym fs =>
      simp only [Symmetry.pyEq, Bool.and_eq_true, decide_eq_true_eq]
      refine ⟨by simp, ?_⟩
      rw [List.all_eq_true]
      intro p hp
      rw [zip_self_eq hp]
      exact p.2.pyEq_refl_atom

theorem zip_map_fst_snd_self {α β : Type} (l : List (α × β)) :
    List.zip (l.map Prod.fst) (l.map Prod.snd) = l := by
  induction l with
  | nil => rfl
  | cons p rest ih => simp [ih]

theorem vectorSpaceInit_symmetry (sym : Symmetry) (secs : List Sector)
    (mo : Option (List Int)) (r dl : Bool) (po : Option (List Nat))
    (so : Option (List (Int × Int))) :
    (vectorSpaceInit sym secs mo r dl po so).symmetry = sym := rfl

theorem vectorSpaceInit_is_real (sym : Symmetry) (secs : List Sector)
    (mo : Option (List Int)) (r dl : Bool) (po : Option (List Nat))
    (so : Option (List (Int × Int))) :
    (vectorSpaceInit sym secs mo r dl po so).is_real = r := rfl

theorem vectorSpaceInit_is_dual (sym : Symmetry) (secs : List Sector)
    (mo : Option (List Int)) (r dl : Bool) (po : Option (List Nat))
    (so : Option (List (Int × Int))) :
    (vectorSpaceInit sym secs mo r dl po so).is_dual = dl := rfl

theorem fuse_spaces_cons (sym : Symmetry)
    (nsym : Sector → Sector → Sector → Except PyErr Int)
    (s0 : VectorSpace) (rest : List VectorSpace) (b : Bool) :
    fuse_spaces sym nsym (s0 :: rest) b
      = match fuseSpacesLoop sym nsym (rest.map (fun s => if b then s.dual else s))
          (dictOfEntries (spaceEntries (if b then s0.dual else s0))) with
        | .error e => .error e
        | .ok d => .ok (sortEntries d) := by
  cases b with
  | false => simp [fuse_spaces]
  | true => simp [fuse_spaces]

theorem fuseStep_ok_nodup {sym : Symmetry}
    {nsym : Sector → Sector → Sector → Except PyErr Int}
    {d bs : List (Sector × Int)} {dI : PyDict}
    (h : fuseStep sym nsym d bs = .ok dI) : nodupKeys dI := by
  rw [fuseStep_norm] at h
  split at h
  · exact Except.noConfusion h
  · injection h with h2
    subst h2
    exact nodupKeys_applyIncs _ (by simp [nodupKeys])

theorem mkProductSpace_pair (X Y : VectorSpace)
    (hsym : Y.symmetry = X.symmetry) (hreal : Y.is_real = X.is_real) :
    mkProductSpace [X, Y] none
      = match fuseStep X.symmetry (nSymbolModelled X.symmetry)
          (dictOfEntries (spaceEntries (if X.is_dual then X.dual else X)))
          (spaceEntries (if X.is_dual then Y.dual else Y)) with
        | .error e => .error e
        | .ok d => .ok (vectorSpaceInit X.symmetry ((sortEntries d).map Prod.fst)
            (some ((sortEntries d).map Prod.snd)) X.is_real X.is_dual
            (some (List.range (sortEntries d).length)) none) := by
  have hall : ([X, Y].all (fun s => s.symmetry.pyEq X.symmetry)) = true := by
    simp [hsym, Symmetry.pyEq_refl]
  have hallr : ([X, Y].all (fun s => s.is_real == X.is_real)) = true := by
    simp [hreal]
  simp only [mkProductSpace, Option.getD_none]
  rw [if_neg (not_not_intro hall), if_neg (not_not_intro hallr)]
  rw [fuse_spaces_cons]
  simp only [fuseSpacesLoop, List.map_cons, List.map_nil]
  cases hF : fuseStep X.symmetry (nSymbolModelled X.symmetry)
      (dictOfEntries (spaceEntries (if X.is_dual then X.dual else X)))
      (spaceEntries (if X.is_dual then Y.dual else Y)) with
  | error e => rfl
  | ok d => rfl

theorem mkProductSpace_triple (X Y Z : VectorSpace)
    (hY : Y.symmetry = X.symmetry) (hZ : Z.symmetry = X.symmetry)
    (hYr : Y.is_real = X.is_real) (hZr : Z.is_real = X.is_real) :
    mkProductSpace [X, Y, Z] none
      = match fuseStep X.symmetry (nSymbolModelled X.symmetry)
          (dictOfEntries (spaceEntries (if X.is_dual then X.dual else X)))
          (spaceEntries (if X.is_dual then Y.dual else Y)) with
        | .error e => .error e
        | .ok d1 =>
            match fuseStep X.symmetry (nSymbolModelled X.symmetry) d1
                (spaceEntries (if X.is_dual then Z.dual else Z)) with
            | .error e => .error e
            | .ok d2 => .ok (vectorSpaceInit X.symmetry ((sortEntries d2).map Prod.fst)
                (some ((sortEntries d2).map Prod.snd)) X.is_real X.is_dual
                (some (List.range (sortEntries d2).length)) none) := by
  have hall : ([X, Y, Z].all (fun s => s.symmetry.pyEq X.symmetry)) = true := by
    simp [hY, hZ, Symmetry.pyEq_refl]
  have hallr : ([X, Y, Z].all (fun s => s.is_real == X.is_real)) = true := by
    simp [hYr, hZr]
  simp only [mkProductSpace, Option.getD_none]
  rw [if_neg (not_not_intro hall), if_neg (not_not_intro hallr)]
  rw [fuse_spaces_cons]
  simp only [fuseSpacesLoop, List.map_cons, List.map_nil]
  cases hF1 : fuseStep X.symmetry (nSymbolModelled X.symmetry)
      (dictOfEntries (spaceEntries (if X.is_dual then X.dual else X)))
      (spaceEntries (if X.is_dual then Y.dual else Y)) with
  | error e => rfl
  | ok d1 =>
      show (match (match (match fuseStep X.symmetry (nSymbolModelled X.symmetry) d1
              (spaceEntries (if X.is_dual then Z.dual else Z)) with
            | .error e => Except.error e
            | .ok d2 => Except.ok d2) with
          | .error e => Except.error e
          | .ok d => Except.ok (sortEntries d)) with
        | .error e => Except.error e
        | .ok d => Except.ok (vectorSpaceInit X.symmetry (d.map Prod.fst)
            (some (d.map Prod.snd)) X.is_real X.is_dual
            (some (List.range d.length)) none))
        = match fuseStep X.symmetry (nSymbolModelled X.symmetry) d1
            (spaceEntries (if X.is_dual then Z.dual else Z)) with
          | .error e => Except.error e
          | .ok d2 => Except.ok (vectorSpaceInit X.symmetry ((sortEntries d2).map Prod.fst)
              (some ((sortEntries d2).map Prod.snd)) X.is_real X.is_dual
              (some (List.range (sortEntries d2).length)) none)
      cases fuseStep X.symmetry (nSymbolModelled X.symmetry) d1
          (spaceEntries (if X.is_dual then Z.dual else Z)) with
      | error e => rfl
      | ok d2 => rfl

/-- Claim C4: for factor spaces sharing one symmetry (and one is_real flag,
both of which ProductSpace.__init__ asserts), the nested product
ProductSpace([ProductSpace([A, B]), C]) produces exactly the same public
sectors, in the same order, as the flat ProductSpace([A, B, C]); with the
spec-modelled _n_symbol the two constructions either fail identically or
give spaces with equal sectors attributes. -/
theorem C4_product_space_associative_sectors (A B C : VectorSpace)
    (hBsym : B.symmetry = A.symmetry) (hCsym : C.symmetry = A.symmetry)
    (hBreal : B.is_real = A.is_real) (hCreal : C.is_real = A.is_real) :
    ((mkProductSpace [A, B] none).bind
        (fun P => mkProductSpace [P, C] none)).map VectorSpace.sectors
      = (mkProductSpace [A, B, C] none).map VectorSpace.sectors := by
  rw [mkProductSpace_pair A B hBsym hBreal,
    mkProductSpace_triple A B C hBsym hCsym hBreal hCreal]
  cases hF1 : fuseStep A.symmetry (nSymbolModelled A.symmetry)
      (dictOfEntries (spaceEntries (if A.is_dual then A.dual else A)))
      (spaceEntries (if A.is_dual then B.dual else B)) with
  | error e => rfl
  | ok dI =>
      show Except.map VectorSpace.sectors (mkProductSpace [vectorSpaceInit A.symmetry
            ((sortEntries dI).map Prod.fst) (some ((sortEntries dI).map Prod.snd))
            A.is_real A.is_dual (some (List.range (sortEntries dI).length)) none, C] none)
        = Except.map VectorSpace.sectors
            (match fuseStep A.symmetry (nSymbolModelled A.symmetry) dI
                (spaceEntries (if A.is_dual then C.dual else C)) with
              | .error e => Except.error e
              | .ok d2 => Except.ok (vectorSpaceInit A.symmetry
                  ((sortEntries d2).map Prod.fst) (some ((sortEntries d2).map Prod.snd))
                  A.is_real A.is_dual (some (List.range (sortEntries d2).length)) none))
      rw [mkProductSpace_pair (vectorSpaceInit A.symmetry ((sortEntries dI).map Prod.fst)
          (some ((sortEntries dI).map Prod.snd)) A.is_real A.is_dual
          (some (List.range (sortEntries dI).length)) none) C
        (hCsym.trans (vectorSpaceInit_symmetry _ _ _ _ _ _ _).symm)
        (hCreal.trans (vectorSpaceInit_is_real _ _ _ _ _ _ _).symm)]
      simp only [vectorSpaceInit_symmetry, vectorSpaceInit_is_real, vectorSpaceInit_is_dual]
      have hnd : nodupKeys dI := fuseStep_ok_nodup hF1
      have hndS : nodupKeys (sortEntries dI) := nodupKeys_sortEntries hnd
      have hPe : spaceEntries (if A.is_dual then (vectorSpaceInit A.symmetry
            ((sortEntries dI).map Prod.fst) (some ((sortEntries dI).map Prod.snd))
            A.is_real A.is_dual (some (List.range (sortEntries dI).length)) none).dual
          else (vectorSpaceInit A.symmetry
            ((sortEntries dI).map Prod.fst) (some ((sortEntries dI).map Prod.snd))
            A.is_real A.is_dual (some (List.range (sortEntries dI).length)) none))
          = sortEntries dI := by
        cases hA : A.is_dual <;>
          simp [spaceEntries, VectorSpace.sorted_sectors, VectorSpace.dual, vectorSpaceInit,
            zip_map_fst_snd_self]
      rw [hPe, dictOfEntries_id (sortEntries dI) hndS]
      have herr : ∀ a b c e, nSymbolModelled A.symmetry a b c = .error e →
          e = PyErr.notImplementedError := fun a b c e h => nSymbol_error h
      have hcong := fuseStep_sortEntries_congr A.symmetry (nSymbolModelled A.symmetry) herr
        (spaceEntries (if A.is_dual then C.dual else C)) (sortEntries_perm dI)
      cases hN : fuseStep A.symmetry (nSymbolModelled A.symmetry) (sortEntries dI)
          (spaceEntries (if A.is_dual then C.dual else C)) with
      | error eN =>
          rw [hN] at hcong
          cases hF2 : fuseStep A.symmetry (nSymbolModelled A.symmetry) dI
              (spaceEntries (if A.is_dual then C.dual else C)) with
          | error eF =>
              rw [hF2] at hcong
              simp only [Except.map] at hcong
              injection hcong with he
              subst he
              rfl
          | ok dF =>
              rw [hF2] at hcong
              simp only [Except.map] at hcong
              exact Except.noConfusion hcong
      | ok dN =>
          rw [hN] at hcong
          cases hF2 : fuseStep A.symmetry (nSymbolModelled A.symmetry) dI
              (spaceEntries (if A.is_dual then C.dual else C)) with
          | error eF =>
              rw [hF2] at hcong
              simp only [Except.map] at hcong
              exact Except.noConfusion hcong
          | ok dF =>
              rw [hF2] at hcong
              simp only [Except.map] at hcong
              injection hcong with hsort
              simp only []
              rw [hsort]

theorem C4_product_space_associative_sectors_witness :
    (vectorSpaceInit (Symmetry.atom (AtomSym.zN 2 none)) [[1]] (some [3])
        false false none none).symmetry
      = (vectorSpaceInit (Symmetry.atom (AtomSym.zN 2 none)) [[0], [1]] (some [1, 2])
        false false none none).symmetry
    ∧ (vectorSpaceInit (Symmetry.atom (AtomSym.zN 2 none)) [[0]] (some [2])
        false false none none).symmetry
      = (vectorSpaceInit (Symmetry.atom (AtomSym.zN 2 none)) [[0], [1]] (some [1, 2])
        false false none none).symmetry
    ∧ (vectorSpaceInit (Symmetry.atom (AtomSym.zN 2 none)) [[1]] (some [3])
        false false none none).is_real
      = (vectorSpaceInit (Symmetry.atom (AtomSym.zN 2 none)) [[0], [1]] (some [1, 2])
        false false none none).is_real
    ∧ (vectorSpaceInit (Symmetry.atom (AtomSym.zN 2 none)) [[0]] (some [2])
        false false none none).is_real
      = (vectorSpaceInit (Symmetry.atom (AtomSym.zN 2 none)) [[0], [1]] (some [1, 2])
        false false none none).is_real
    ∧ ((mkProductSpace
          [vectorSpaceInit (Symmetry.atom (AtomSym.zN 2 none)) [[0], [1]] (some [1, 2])
            false false none none,
           vectorSpaceInit (Symmetry.atom (AtomSym.zN 2 none)) [[1]] (some [3])
            false false none none] none).bind
        (fun P => mkProductSpace
          [P, vectorSpaceInit (Symmetry.atom (AtomSym.zN 2 none)) [[0]] (some [2])
            false false none none] none)).map VectorSpace.sectors
      = (mkProductSpace
          [vectorSpaceInit (Symmetry.atom (AtomSym.zN 2 none)) [[0], [1]] (some [1, 2])
            false false none none,
           vectorSpaceInit (Symmetry.atom (AtomSym.zN 2 none)) [[1]] (some [3])
            false false none none,
           vectorSpaceInit (Symmetry.atom (AtomSym.zN 2 none)) [[0]] (some [2])
            false false none none] none).map VectorSpace.sectors :=
  ⟨rfl, rfl, rfl, rfl, C4_product_space_associative_sectors _ _ _ rfl rfl rfl rfl⟩

/-! ### The executed ProductSpace always hits a missing attribute (C5) -/

theorem nSymbolExec_error (sym : Symmetry) (a b c : Sector) :
    nSymbolExec sym a b c = .error (.attributeError "_n_symbol") := by
  unfold nSymbolExec
  rw [n_symbol_underscore_not_defined]

theorem fuseStep_error {sym : Symmetry}
    {nsym : Sector → Sector → Sector → Except PyErr Int} {E : PyErr}
    (herr : ∀ a b c e, nsym a b c = .error e → e = E)
    {d bs : List (Sector × Int)} {e : PyErr}
    (h : fuseStep sym nsym d bs = .error e) : e = E := by
  rw [fuseStep_norm] at h
  split at h
  · rename_i e2 hn
    injection h with h2
    subst h2
    exact collectAll_error sym herr bs hn
  · exact Except.noConfusion h

theorem fuseSpacesLoop_error {sym : Symmetry}
    {nsym : Sector → Sector → Sector → Except PyErr Int} {E : PyErr}
    (herr : ∀ a b c e, nsym a b c = .error e → e = E) :
    ∀ (rest : List VectorSpace) (d : PyDict) {e : PyErr},
      fuseSpacesLoop sym nsym rest d = .error e → e = E := by
  intro rest
  induction rest with
  | nil => intro d e h; exact absurd h (by simp [fuseSpacesLoop])
  | cons sp tl ih =>
      intro d e h
      simp only [fuseSpacesLoop] at h
      split at h
      · rename_i e2 hn
        injection h with h2
        subst h2
        exact fuseStep_error herr hn
      · rename_i d2 hn
        exact ih d2 h

theorem keys_dinsertSet_self (d : PyDict) (k : Sector) (v : Int) :
    k ∈ (dinsertSet d k v).map Prod.fst := by
  induction d with
  | nil => simp [dinsertSet]
  | cons p rest ih =>
      obtain ⟨k0, v0⟩ := p
      by_cases h : k0 = k
      · subst h; simp [dinsertSet]
      · simp [dinsertSet, h, ih]

theorem keys_dinsertSet_mono {d : PyDict} {k : Sector} (k2 : Sector) (v : Int)
    (h : k ∈ d.map Prod.fst) : k ∈ (dinsertSet d k2 v).map Prod.fst := by
  induction d with
  | nil => exact absurd h (by simp)
  | cons p rest ih =>
      obtain ⟨k0, v0⟩ := p
      rw [List.map_cons, List.mem_cons] at h
      by_cases h2 : k0 = k2
      · subst h2
        rcases h with h | h <;> simp [dinsertSet, h]
      · rcases h with h | h
        · simp [dinsertSet, h2, h]
        · simp [dinsertSet, h2, ih h]

theorem keys_foldl_dinsertSet {es : List (Sector × Int)} :
    ∀ {acc : PyDict} {k : Sector}, k ∈ acc.map Prod.fst →
      k ∈ (es.foldl (fun d p => dinsertSet d p.1 p.2) acc).map Prod.fst := by
  induction es with
  | nil => intro acc k h; exact h
  | cons p rest ih =>
      intro acc k h
      simp only [List.foldl_cons]
      exact ih (keys_dinsertSet_mono p.1 p.2 h)

theorem head_key_mem_dictOfEntries (k : Sector) (m : Int) (rest : List (Sector × Int)) :
    ∃ v, (k, v) ∈ dictOfEntries ((k, m) :: rest) := by
  have hk : k ∈ (dictOfEntries ((k, m) :: rest)).map Prod.fst := by
    unfold dictOfEntries
    simp only [List.foldl_cons]
    exact keys_foldl_dinsertSet (by simp [dinsertSet])
  rw [List.mem_map] at hk
  obtain ⟨⟨pk, pv⟩, hp, hpk⟩ := hk
  simp only at hpk
  subst hpk
  exact ⟨pv, hp⟩

theorem AtomSym.fusionOutcomes_ne_nil_atom (g : AtomSym) {a b : Sector}
    (ha : g.isValidSector a = true) (hb : g.isValidSector b = true) :
    g.fusionOutcomes a b ≠ [] := by
  cases g with
  | noSymmetry => simp [AtomSym.fusionOutcomes]
  | u1 _ => simp [AtomSym.fusionOutcomes]
  | zN N _ => simp [AtomSym.fusionOutcomes]
  | fermionParity => simp [AtomSym.fusionOutcomes]
  | su2 _ =>
      simp only [AtomSym.isValidSector, Bool.and_eq_true, decide_eq_true_eq] at ha hb
      obtain ⟨-, ha0⟩ := ha
      obtain ⟨-, hb0⟩ := hb
      simp only [AtomSym.fusionOutcomes, ne_eq, List.map_eq_nil_iff]
      unfold arangeStep2
      simp only [List.map_eq_nil_iff, List.range_eq_nil]
      intro hzero
      rw [Int.toNat_eq_zero] at hzero
      rcases abs_cases (a.headD 0 - b.headD 0) with ⟨h1, h2⟩ | ⟨h1, h2⟩ <;> omega

theorem prodOutcomes_ne_nil : ∀ (fs : List AtomSym) (a b : Sector),
    prodValidParts fs a = true → prodValidParts fs b = true →
    prodOutcomes fs a b ≠ [] := by
  intro fs
  induction fs with
  | nil => intro a b _ _; simp [prodOutcomes]
  | cons g gs ih =>
      intro a b ha hb
      simp only [prodValidParts, Bool.and_eq_true] at ha hb
      have h1 := g.fusionOutcomes_ne_nil_atom ha.1 hb.1
      have h2 := ih (a.drop 1) (b.drop 1) ha.2 hb.2
      obtain ⟨c, cs, hc⟩ := List.exists_cons_of_ne_nil h1
      obtain ⟨t, ts, ht⟩ := List.exists_cons_of_ne_nil h2
      simp only [prodOutcomes, hc, ht]
      simp [List.flatMap_cons]

theorem Symmetry.fusionOutcomes_ne_nil (s : Symmetry) {a b : Sector}
    (ha : s.isValidSector a = true) (hb : s.isValidSector b = true) :
    s.fusionOutcomes a b ≠ [] := by
  cases s with
  | atom g => exact g.fusionOutcomes_ne_nil_atom ha hb
  | prodSym fs =>
      simp only [Symmetry.isValidSector, Bool.and_eq_true, decide_eq_true_eq] at ha hb
      exact prodOutcomes_ne_nil fs a b ha.2 hb.2

theorem AtomSym.isValidSector_dualSector_atom (g : AtomSym) {a : Sector}
    (h : g.isValidSector a = true) : g.isValidSector (g.dualSector a) = true := by
  cases g with
  | noSymmetry => exact h
  | su2 _ => exact h
  | fermionParity => exact h
  | u1 _ =>
      simp only [AtomSym.isValidSector, AtomSym.dualSector, decide_eq_true_eq,
        List.length_map] at h ⊢
      exact h
  | zN N _ =>
      simp only [AtomSym.isValidSector, Bool.and_eq_true, decide_eq_true_eq] at h
      obtain ⟨hlen, h0, h1⟩ := h
      obtain ⟨x, hx⟩ := List.length_eq_one.mp hlen
      subst hx
      simp only [List.headD_cons] at h0 h1
      have hNpos : (0 : Int) < (N : Int) := lt_of_le_of_lt h0 h1
      have hN : (N : Int) ≠ 0 := ne_of_gt hNpos
      simp only [AtomSym.isValidSector, AtomSym.dualSector, List.map_cons, List.map_nil,
        npMod, if_neg hN, List.length_cons, List.length_nil, List.headD_cons,
        Bool.and_eq_true, decide_eq_true_eq]
      exact ⟨by simp, Int.emod_nonneg _ hN, Int.emod_lt_of_pos _ hNpos⟩

theorem prodValidParts_dual : ∀ (fs : List AtomSym) (a : Sector),
    prodValidParts fs a = true → a.length = fs.length →
    prodValidParts fs (prodDualSector fs a) = true
      ∧ (prodDualSector fs a).length = fs.length := by
  intro fs
  induction fs with
  | nil => intro a _ _; exact ⟨rfl, by simp [prodDualSector]⟩
  | cons g gs ih =>
      intro a hv hlen
      obtain ⟨x, rest, hx⟩ : ∃ x rest, a = x :: rest := by
        cases a with
        | nil => exact absurd hlen (by simp)
        | cons x rest => exact ⟨x, rest, rfl⟩
      subst hx
      simp only [prodValidParts, Bool.and_eq_true] at hv
      simp only [prodDualSector]
      rw [show (x :: rest).take 1 = [x] from rfl, show (x :: rest).drop 1 = rest from rfl]
      have hdl : (g.dualSector [x]).length = 1 := by rw [AtomSym.dualSector_length]; rfl
      obtain ⟨y, hy⟩ := List.length_eq_one.mp hdl
      have hlen2 : rest.length = gs.length := by simpa using hlen
      obtain ⟨ihv, ihl⟩ := ih rest hv.2 hlen2
      rw [hy]
      refine ⟨?_, ?_⟩
      · simp only [prodValidParts, Bool.and_eq_true]
        constructor
        · rw [show ([y] ++ prodDualSector gs rest).take 1 = [y] from rfl, ← hy]
          exact g.isValidSector_dualSector_atom hv.1
        · rw [show ([y] ++ prodDualSector gs rest).drop 1 = prodDualSector gs rest from rfl]
          exact ihv
      · simp [ihl]

theorem Symmetry.isValidSector_dualSector (s : Symmetry) {a : Sector}
    (h : s.isValidSector a = true) : s.isValidSector (s.dualSector a) = true := by
  cases s with
  | atom g => exact g.isValidSector_dualSector_atom h
  | prodSym fs =>
      simp only [Symmetry.isValidSector, Symmetry.dualSector, Bool.and_eq_true,
        decide_eq_true_eq] at h ⊢
      obtain ⟨hl, hv⟩ := h
      obtain ⟨hv2, hl2⟩ := prodValidParts_dual fs a hv hl
      exact ⟨hl2, hv2⟩

theorem sorted_sectors_cases (v : VectorSpace) (b : Bool) :
    (if b then v.dual else v).sorted_sectors = v.non_dual_sorted_sectors
      ∨ (if b then v.dual else v).sorted_sectors
          = v.symmetry.dualSectors v.non_dual_sorted_sectors := by
  cases b with
  | false =>
      by_cases h : v.is_dual = true
      · right; simp [VectorSpace.sorted_sectors, h]
      · left; simp [VectorSpace.sorted_sectors, h]
  | true =>
      by_cases h : v.is_dual = true
      · left; simp [VectorSpace.sorted_sectors, VectorSpace.dual, h]
      · right; simp [VectorSpace.sorted_sectors, VectorSpace.dual, h]

theorem mem_sorted_sectors_valid {v : VectorSpace} (b : Bool)
    (hv : ∀ x ∈ v.non_dual_sorted_sectors, v.symmetry.isValidSector x = true)
    {s : Sector} (hs : s ∈ (if b then v.dual else v).sorted_sectors) :
    v.symmetry.isValidSector s = true := by
  rcases sorted_sectors_cases v b with hc | hc
  · rw [hc] at hs; exact hv s hs
  · rw [hc] at hs
    unfold Symmetry.dualSectors at hs
    rw [List.mem_map] at hs
    obtain ⟨x, hx, hxs⟩ := hs
    subst hxs
    exact Symmetry.isValidSector_dualSector _ (hv x hx)

theorem sorted_sectors_ne_nil {v : VectorSpace} (b : Bool)
    (h : v.non_dual_sorted_sectors ≠ []) :
    (if b then v.dual else v).sorted_sectors ≠ [] := by
  rcases sorted_sectors_cases v b with hc | hc <;> rw [hc]
  · exact h
  · unfold Symmetry.dualSectors
    simpa using h

theorem dual_sorted_multiplicities (v : VectorSpace) (b : Bool) :
    (if b then v.dual else v).sorted_multiplicities = v.sorted_multiplicities := by
  cases b <;> rfl

theorem vectorSpaceInitExec_none_slices (symmetry : Symmetry) (sectors : List Sector)
    (multsOpt : Option (List Int)) (is_real is_dual : Bool) (permOpt : Option (List Nat))
    (hm : ∀ ms, multsOpt = some ms → ms.length = sectors.length)
    (hp : ∀ p, permOpt = some p → p.length = sectors.length) :
    vectorSpaceInitExec symmetry sectors multsOpt is_real is_dual permOpt none
      = .error (.attributeError "batch_sector_dim") := by
  have hslices : ∀ (mo : Option (List Int)) (po : Option (List Nat)),
      vsInitExecSlices symmetry sectors mo is_real is_dual po none
        = .error (.attributeError "batch_sector_dim") := by
    intro mo po
    unfold vsInitExecSlices
    rw [batch_sector_dim_not_defined]
  have hperm : ∀ (mo : Option (List Int)),
      vsInitExecPerm symmetry sectors mo is_real is_dual permOpt none
        = .error (.attributeError "batch_sector_dim") := by
    intro mo
    cases hc : permOpt with
    | none => exact hslices mo none
    | some p =>
        show (if p.length = sectors.length then
            vsInitExecSlices symmetry sectors mo is_real is_dual (some p) none
          else .error .assertionError) = _
        rw [if_pos (hp p hc)]
        exact hslices mo (some p)
  cases hc : multsOpt with
  | none => exact hperm none
  | some ms =>
      show (if ms.length = sectors.length then
          vsInitExecPerm symmetry sectors (some ms) is_real is_dual permOpt none
        else .error .assertionError) = _
      rw [if_pos (hm ms hc)]
      exact hperm (some ms)

/-- Claim C5: constructing a ProductSpace without a backend and without
precomputed sectors always raises AttributeError once the symmetry and
is_real asserts pass: the fusion loop's symmetry._n_symbol lookup fails
(no class defines _n_symbol), and on paths where the loop body never runs
the batch_sector_dim lookup of VectorSpace.__init__ fails instead.  With
at least two factor spaces carrying nonempty valid sector data the error
is precisely the missing _n_symbol. -/
theorem C5_product_space_n_symbol_attribute_error :
    (∀ (sp0 : VectorSpace) (tl : List VectorSpace),
      ((sp0 :: tl).all (fun s => s.symmetry.pyEq sp0.symmetry)) = true →
      ((sp0 :: tl).all (fun s => s.is_real == sp0.is_real)) = true →
      ∃ attr, mkProductSpaceExec (sp0 :: tl) none = .error (.attributeError attr)) ∧
    (∀ (s0 s1 : VectorSpace) (tl : List VectorSpace),
      (∀ sp ∈ s0 :: s1 :: tl, sp.symmetry = s0.symmetry) →
      (∀ sp ∈ s0 :: s1 :: tl, sp.is_real = s0.is_real) →
      s0.non_dual_sorted_sectors ≠ [] →
      s1.non_dual_sorted_sectors ≠ [] →
      s0.sorted_multiplicities.length = s0.non_dual_sorted_sectors.length →
      s1.sorted_multiplicities.length = s1.non_dual_sorted_sectors.length →
      (∀ x ∈ s0.non_dual_sorted_sectors, s0.symmetry.isValidSector x = true) →
      (∀ x ∈ s1.non_dual_sorted_sectors, s1.symmetry.isValidSector x = true) →
      mkProductSpaceExec (s0 :: s1 :: tl) none = .error (.attributeError "_n_symbol")) := by
  constructor
  · intro sp0 tl hallsym hallreal
    have herrExec : ∀ a b c e, nSymbolExec sp0.symmetry a b c = .error e →
        e = PyErr.attributeError "_n_symbol" := by
      intro a b c e h
      rw [nSymbolExec_error] at h
      injection h with h2
      exact h2.symm
    simp only [mkProductSpaceExec, Option.getD_none]
    rw [if_neg (not_not_intro hallsym), if_neg (not_not_intro hallreal)]
    cases hf : fuse_spaces sp0.symmetry (nSymbolExec sp0.symmetry) (sp0 :: tl) sp0.is_dual with
    | error e =>
        refine ⟨"_n_symbol", ?_⟩
        have he : e = PyErr.attributeError "_n_symbol" := by
          rw [fuse_spaces_cons] at hf
          split at hf
          · rename_i e2 hn
            injection hf with h2
            subst h2
            exact fuseSpacesLoop_error herrExec _ _ hn
          · exact Except.noConfusion hf
        rw [he]
    | ok d =>
        refine ⟨"batch_sector_dim", ?_⟩
        show vectorSpaceInitExec sp0.symmetry (d.map Prod.fst) (some (d.map Prod.snd))
            sp0.is_real sp0.is_dual (some (List.range d.length)) none
          = Except.error (.attributeError "batch_sector_dim")
        exact vectorSpaceInitExec_none_slices _ _ _ _ _ _
          (fun ms hms => by cases hms; simp)
          (fun p hp2 => by cases hp2; simp)
  · intro s0 s1 tl hsym hreal h0ne h1ne h0len h1len h0val h1val
    have herrExec : ∀ a b c e, nSymbolExec s0.symmetry a b c = .error e →
        e = PyErr.attributeError "_n_symbol" := by
      intro a b c e h
      rw [nSymbolExec_error] at h
      injection h with h2
      exact h2.symm
    have hallsym : ((s0 :: s1 :: tl).all (fun s => s.symmetry.pyEq s0.symmetry)) = true := by
      rw [List.all_eq_true]
      intro sp hsp
      rw [hsym sp hsp]
      exact Symmetry.pyEq_refl _
    have hallreal : ((s0 :: s1 :: tl).all (fun s => s.is_real == s0.is_real)) = true := by
      rw [List.all_eq_true]
      intro sp hsp
      rw [hreal sp hsp]
      simp
    have hS0ne := sorted_sectors_ne_nil (v := s0) s0.is_dual h0ne
    obtain ⟨k0, srest, hS0⟩ := List.exists_cons_of_ne_nil hS0ne
    have hM0ne : s0.sorted_multiplicities ≠ [] := by
      intro hc
      have hz : s0.non_dual_sorted_sectors.length = 0 := by rw [← h0len, hc]; rfl
      exact h0ne (List.eq_nil_of_length_eq_zero hz)
    obtain ⟨m0, mrest, hM0⟩ := List.exists_cons_of_ne_nil hM0ne
    have hse0 : spaceEntries (if s0.is_dual then s0.dual else s0)
        = (k0, m0) :: List.zip srest mrest := by
      unfold spaceEntries
      rw [hS0, dual_sorted_multiplicities, hM0]
      rfl
    have hS1ne := sorted_sectors_ne_nil (v := s1) s0.is_dual h1ne
    obtain ⟨sb0, sbrest, hS1⟩ := List.exists_cons_of_ne_nil hS1ne
    have hM1ne : s1.sorted_multiplicities ≠ [] := by
      intro hc
      have hz : s1.non_dual_sorted_sectors.length = 0 := by rw [← h1len, hc]; rfl
      exact h1ne (List.eq_nil_of_length_eq_zero hz)
    obtain ⟨mb0, mbrest, hM1⟩ := List.exists_cons_of_ne_nil hM1ne
    have hse1 : spaceEntries (if s0.is_dual then s1.dual else s1)
        = (sb0, mb0) :: List.zip sbrest mbrest := by
      unfold spaceEntries
      rw [hS1, dual_sorted_multiplicities, hM1]
      rfl
    have hk0val : s0.symmetry.isValidSector k0 = true :=
      mem_sorted_sectors_valid s0.is_dual h0val (by rw [hS0]; exact List.mem_cons_self _ _)
    have hsb0val : s0.symmetry.isValidSector sb0 = true := by
      have hv := mem_sorted_sectors_valid (v := s1) s0.is_dual h1val
        (by rw [hS1]; exact List.mem_cons_self _ _)
      rwa [hsym s1 (by simp)] at hv
    obtain ⟨c, cs, hc⟩ := List.exists_cons_of_ne_nil
      (s0.symmetry.fusionOutcomes_ne_nil hk0val hsb0val)
    have hco : ∀ (m_a m_b : Int), collectOutcomes (nSymbolExec s0.symmetry) k0 m_a sb0 m_b
        (s0.symmetry.fusionOutcomes k0 sb0) = .error (.attributeError "_n_symbol") := by
      intro m_a m_b
      rw [hc]
      simp only [collectOutcomes, nSymbolExec_error]
    have hcp : ∀ (m_a : Int), collectPairIncs s0.symmetry (nSymbolExec s0.symmetry) k0 m_a
        (spaceEntries (if s0.is_dual then s1.dual else s1))
        = .error (.attributeError "_n_symbol") := by
      intro m_a
      rw [hse1]
      simp only [collectPairIncs]
      rw [hco m_a mb0]
    obtain ⟨mv, hk0mem⟩ := head_key_mem_dictOfEntries k0 m0 (List.zip srest mrest)
    have hbad : ∀ i1, ¬ collectPairIncs s0.symmetry (nSymbolExec s0.symmetry) k0 mv
        (spaceEntries (if s0.is_dual then s1.dual else s1)) = .ok i1 :=
      fun i1 h => Except.noConfusion ((hcp mv).symm.trans h)
    obtain ⟨e, he⟩ := collectAll_error_of_mem s0.symmetry (nSymbolExec s0.symmetry)
      (spaceEntries (if s0.is_dual then s1.dual else s1)) hk0mem hbad
    have heE : e = PyErr.attributeError "_n_symbol" :=
      collectAll_error s0.symmetry herrExec _ he
    subst heE
    have hfs : fuseStep s0.symmetry (nSymbolExec s0.symmetry)
        (dictOfEntries (spaceEntries (if s0.is_dual then s0.dual else s0)))
        (spaceEntries (if s0.is_dual then s1.dual else s1))
        = .error (.attributeError "_n_symbol") := by
      rw [fuseStep_norm, hse0, he]
    simp only [mkProductSpaceExec, Option.getD_none]
    rw [if_neg (not_not_intro hallsym), if_neg (not_not_intro hallreal)]
    rw [fuse_spaces_cons]
    simp only [List.map_cons, fuseSpacesLoop]
    rw [hfs]

theorem C5_product_space_n_symbol_attribute_error_witness :
    (∃ attr, mkProductSpaceExec
        [vectorSpaceInit (.atom (.zN 2 none)) [[0],[1]] (some [1,1]) false false none none]
        none = .error (.attributeError attr))
    ∧ mkProductSpaceExec
        [vectorSpaceInit (.atom (.zN 2 none)) [[0],[1]] (some [1,1]) false false none none,
         vectorSpaceInit (.atom (.zN 2 none)) [[1]] (some [2]) false false none none]
        none = .error (.attributeError "_n_symbol") :=
  ⟨C5_product_space_n_symbol_attribute_error.1
      (vectorSpaceInit (.atom (.zN 2 none)) [[0],[1]] (some [1,1]) false false none none)
      [] (by decide) (by decide),
    C5_product_space_n_symbol_attribute_error.2
      (vectorSpaceInit (.atom (.zN 2 none)) [[0],[1]] (some [1,1]) false false none none)
      (vectorSpaceInit (.atom (.zN 2 none)) [[1]] (some [2]) false false none none)
      [] (by decide) (by decide) (by decide) (by decide) (by decide) (by decide)
      (by decide) (by decide)⟩
